import Mathlib

/-!
# Bitset utilities of benzene (`src/util/Bitset.hpp`)

A shallow embedding of `bitset_t = std::bitset<BITSETSIZE>` and of the
functions of namespace `BitsetUtil`, followed by theorems about them.  The
functions are written for `std::bitset<N>` with `N` arbitrary; the theorems
are stated for `bitset_t` in each of the four builds.

## Platform model

* `std::bitset<N>` is modelled by the natural number whose binary digit `i`
  is bit `i` of the set; unused storage bits are zero, as the library keeps
  them.
* The optimised branches (`OPTIMIZED_BITSET` is `1`) read the object as an
  array of `int`.  The model is a little-endian LP64 target: `sizeof(int)` is
  4, the storage is `ceil(N/64)` words of 8 bytes, and the `int` at index `k`
  holds bits `32k .. 32k+31` of the set in two's complement.
* Machine integers are numbers with explicit wrap-around: an `int` object is
  its 32-bit pattern (`Nat` below `2^32`), read as a signed value by `asInt`.
* The template parameter `INT` of `BitsetToVector` is an integer type that
  holds every index below the capacity, so `static_cast<INT>(i)` is exact.
  The elements of the `std::set<INT>` given to `SetToBitset` are integers of
  any width; `static_cast<int>` narrows them to 32 bits with wrap-around.
* The functions that `Bitset.hpp` only declares (`Subtract`,
  `SubtractIfLeavesAny`, `operator-` and the byte and hexadecimal conversions)
  are modelled from the specification; a `std::string` is the list of its
  characters and a byte buffer the list of its bytes.
-/

/-! ## `std::bitset<N>` -/

/-- Faults that end a call without a result. -/
inductive Fault where
  /-- `std::out_of_range`, thrown by the checked accessors of `std::bitset`. -/
  | out_of_range
  /-- A failed `assert`. -/
  | assertion
  /-- Malformed external input, reported to the caller. -/
  | malformed_input
deriving DecidableEq, Repr

deriving instance DecidableEq for Except

/-- Model of `std::bitset<N>`: binary digit `i` of `val` is bit `i`. -/
structure bitset (N : Nat) where
  /-- The bits, bit `i` having weight `2^i`. -/
  val : Nat
  /-- Only positions below `N` exist. -/
  isLt : val < 2 ^ N
deriving DecidableEq, Repr

namespace bitset

variable {N : Nat}

/-- Default construction: all bits clear. -/
def zero (N : Nat) : bitset N := ⟨0, Nat.pos_pow_of_pos N (by decide)⟩

/-- Unchecked read `b[pos]`. -/
def get (b : bitset N) (pos : Nat) : Bool := b.val.testBit pos

/-- Checked read `b.test(pos)`: throws `std::out_of_range` when `pos ≥ N`. -/
def test (b : bitset N) (pos : Nat) : Except Fault Bool :=
  if pos < N then .ok (b.val.testBit pos) else .error .out_of_range

/-- Checked write `b.set(pos)`: throws `std::out_of_range` when `pos ≥ N`. -/
def set (b : bitset N) (pos : Nat) : Except Fault (bitset N) :=
  if h : pos < N then
    .ok ⟨b.val ||| 2 ^ pos,
      Nat.or_lt_two_pow b.isLt (Nat.pow_lt_pow_right (by decide) h)⟩
  else .error .out_of_range

/-- Number of one digits among the lowest `k` binary digits of `n`. -/
def popcount : Nat → Nat → Nat
  | 0, _ => 0
  | k + 1, n => n % 2 + popcount k (n / 2)

/-- The library's `b.count()`: number of set bits. -/
def count (b : bitset N) : Nat := popcount N b.val

/-- The library's `b.any()`. -/
def any (b : bitset N) : Bool := b.val != 0

/-- The library's `b1 & b2`. -/
def and (b1 b2 : bitset N) : bitset N :=
  ⟨b1.val &&& b2.val, Nat.and_lt_two_pow _ b2.isLt⟩

/-- The library's `~b`: every position below `N` is flipped. -/
def flip (b : bitset N) : bitset N :=
  ⟨b.val ^^^ (2 ^ N - 1),
    Nat.xor_lt_two_pow b.isLt (Nat.sub_lt (Nat.pos_pow_of_pos N (by decide)) (by decide))⟩

end bitset

/-! ## Build constants -/

/-- The branch of the `#if defined(SUPPORT_19x19) ... #else ... #endif` chain
that the build takes. -/
inductive Build where
  /-- `SUPPORT_19x19` is defined. -/
  | SUPPORT_19x19
  /-- `SUPPORT_14x14` is defined and `SUPPORT_19x19` is not. -/
  | SUPPORT_14x14
  /-- Only `SUPPORT_13x13` is defined. -/
  | SUPPORT_13x13
  /-- None of the three macros is defined (the `#else` branch). -/
  | otherwise
deriving DecidableEq, Repr

/-- Maximum size of a bitset. -/
def BITSETSIZE : Build → Nat
  | .SUPPORT_19x19 => 384
  | .SUPPORT_14x14 => 224
  | .SUPPORT_13x13 => 192
  | .otherwise => 128

/-- Standard-sized bitset. -/
abbrev bitset_t (c : Build) := bitset (BITSETSIZE c)

/-- Global empty bitset. -/
def EMPTY_BITSET (c : Build) : bitset_t c := bitset.zero (BITSETSIZE c)

/-! ## Reading a bitset as an array of `int` -/

/-- The platform's `sizeof(int)`. -/
def sizeof_int : Nat := 4

/-- The platform's `sizeof(std::bitset<N>)`: whole 8-byte words. -/
def sizeof_bitset (N : Nat) : Nat := 8 * ((N + 63) / 64)

/-- The 32-bit pattern stored at `((const int*)&b)[k]`. -/
def intAt {N : Nat} (b : bitset N) (k : Nat) : Nat := (b.val >>> (32 * k)) % 2 ^ 32

/-- The value of an `int` object with the given 32-bit pattern. -/
def asInt (w : Nat) : Int := if w < 2 ^ 31 then (w : Int) else (w : Int) - 2 ^ 32

/-- The pattern of `~x` for an `int` with pattern `w`. -/
def int_not (w : Nat) : Nat := w ^^^ (2 ^ 32 - 1)

/-- The pattern of `x & y` for `int`s with patterns `v` and `w`. -/
def int_and (v w : Nat) : Nat := v &&& w

namespace BitsetUtil

variable {N : Nat}

/-- The constant `num = sizeof(bitset_t)/sizeof(int)` of both optimised loops. -/
def num (N : Nat) : Nat := sizeof_bitset N / sizeof_int

/-- Loop of `IsLessThan` (optimised branch) with `r` iterations left at index
`i`; `ib1` and `ib2` point at the `int`s of index `i`. -/
def IsLessThan.loop (b1 b2 : bitset N) : Nat → Nat → Bool
  | 0, _ => false
  | r + 1, i =>
    if intAt b1 i ≠ intAt b2 i then decide (asInt (intAt b1 i) < asInt (intAt b2 i))
    else IsLessThan.loop b1 b2 r (i + 1)

/-- Function `BitsetUtil::IsLessThan`, the branch compiled under
`OPTIMIZED_BITSET`. -/
def IsLessThan (b1 b2 : bitset N) : Bool := IsLessThan.loop b1 b2 (num N) 0

/-- Loop of `IsSubsetOf` (optimised branch) with `r` iterations left at index
`i`. -/
def IsSubsetOf.loop (b1 b2 : bitset N) : Nat → Nat → Bool
  | 0, _ => true
  | r + 1, i =>
    if int_and (intAt b1 i) (int_not (intAt b2 i)) ≠ 0 then false
    else IsSubsetOf.loop b1 b2 r (i + 1)

/-- Function `BitsetUtil::IsSubsetOf`, the branch compiled under
`OPTIMIZED_BITSET`. -/
def IsSubsetOf (b1 b2 : bitset N) : Bool := IsSubsetOf.loop b1 b2 (num N) 0

/-- The `#else` branch of `IsSubsetOf`: `(b1 & b2) == b1`. -/
def IsSubsetOf_fallback (b1 b2 : bitset N) : Bool := decide (b1.and b2 = b1)

/-- Reference ordering in the words of the specification: the words are
scanned from the most significant (index `num - 1`) down to index `0`, and the
first pair that differs is compared as unsigned numbers.  `k` words remain,
those of index below `k`. -/
def IsLessThan_spec.scan (b1 b2 : bitset N) : Nat → Bool
  | 0 => false
  | k + 1 =>
    if intAt b1 k ≠ intAt b2 k then decide (intAt b1 k < intAt b2 k)
    else IsLessThan_spec.scan b1 b2 k

/-- Reference ordering in the words of the specification. -/
def IsLessThan_spec (b1 b2 : bitset N) : Bool := IsLessThan_spec.scan b1 b2 (num N)

end BitsetUtil

/-! ## Index collections -/

/-- Value of an `int` after conversion to the 64-bit `size_t` parameter of
`std::bitset::set` and `std::bitset::test`. -/
def to_size_t (x : Int) : Nat := (x % 2 ^ 64).toNat

/-- Value of `static_cast<int>(x)` for an integer `x` of any width: the value
congruent to `x` modulo `2^32` in the range of `int`. -/
def static_cast_int (x : Int) : Int := (x + 2 ^ 31) % 2 ^ 32 - 2 ^ 31

/-- The library's `indices.clear()`. -/
def vector_clear (_indices : List Int) : List Int := []

/-- The library's `indices.push_back(x)`. -/
def vector_push_back (indices : List Int) (x : Int) : List Int := indices ++ [x]

namespace BitsetUtil

variable {N : Nat}

/-- Loop of `BitsetToVector` with `r` iterations left at index `i`. -/
def BitsetToVector.loop (b : bitset N) : Nat → Nat → List Int → Except Fault (List Int)
  | 0, _, indices => .ok indices
  | r + 1, i, indices =>
    match b.test (to_size_t (i : Int)) with
    | .error e => .error e
    | .ok true => BitsetToVector.loop b r (i + 1) (vector_push_back indices (i : Int))
    | .ok false => BitsetToVector.loop b r (i + 1) indices

/-- Function `BitsetUtil::BitsetToVector`: the result is the content of `indices` after
the call, or the fault that ended it. -/
def BitsetToVector (b : bitset N) (indices : List Int) : Except Fault (List Int) :=
  match BitsetToVector.loop b N 0 (vector_clear indices) with
  | .error e => .error e
  | .ok out => if b.count = out.length then .ok out else .error .assertion

/-- Loop of `SetToBitset` over the elements still to visit. -/
def SetToBitset.loop : List Int → bitset N → Except Fault (bitset N)
  | [], ret => .ok ret
  | it :: rest, ret =>
    match ret.set (to_size_t (static_cast_int it)) with
    | .error e => .error e
    | .ok ret1 => SetToBitset.loop rest ret1

/-- Function `BitsetUtil::SetToBitset`.  The `std::set` argument is given by the list
of its elements in iteration order, each the integer value of an element of
type `INT`; the function is defined on every list. -/
def SetToBitset (indices : List Int) : Except Fault (bitset N) :=
  SetToBitset.loop indices (bitset.zero N)

/-- Modelled from the spec: the body of `BitsetUtil::Subtract` (only declared
in `Bitset.hpp`), "bitwise `a AND NOT b`". -/
def Subtract (b1 b2 : bitset N) : bitset N := b1.and b2.flip

/-- Modelled from the spec: the body of `BitsetUtil::SubtractIfLeavesAny`
(only declared in `Bitset.hpp`): compute `r = Subtract(a, b)`; if `r` is
non-empty, overwrite `a` with `r` and return true; otherwise leave `a`
unchanged and return false.  The result is the returned flag, then
`removeFrom` and `remove` after the call. -/
def SubtractIfLeavesAny (removeFrom remove : bitset N) : Bool × bitset N × bitset N :=
  let r := Subtract removeFrom remove
  if r.any then (true, r, remove) else (false, removeFrom, remove)

end BitsetUtil

/-! ## The unoptimised branch of `IsLessThan` -/

namespace BitsetUtil

variable {N : Nat}

/-- Loop of the `#else` branch of `IsLessThan` with `r` iterations left at
index `i`. -/
def IsLessThan_fallback.loop (b1 b2 : bitset N) : Nat → Nat → Bool
  | 0, _ => false
  | r + 1, i =>
    if b1.get (to_size_t (i : Int)) ≠ b2.get (to_size_t (i : Int)) then
      !b1.get (to_size_t (i : Int))
    else IsLessThan_fallback.loop b1 b2 r (i + 1)

/-- The `#else` branch of `IsLessThan`, compiled when `OPTIMIZED_BITSET` is
`0`. -/
def IsLessThan_fallback (b1 b2 : bitset N) : Bool := IsLessThan_fallback.loop b1 b2 N 0

/-- Modelled from the spec: the body of the binary `operator-` on bitsets
(only declared in `Bitset.hpp`, "Extends the standard binary '-' operator for
bitsets"; the header writes `removeFrom - remove` for the subtraction). -/
def operator_minus (b1 b2 : bitset N) : bitset N := Subtract b1 b2

end BitsetUtil

/-! ## Serialisation -/

/-- The lower-case hexadecimal digit of a value below 16. -/
def hexDigit (n : Nat) : Char :=
  if n < 10 then Char.ofNat (48 + n) else Char.ofNat (87 + n)

/-- The value of a hexadecimal digit of either case, if the character is one. -/
def hexVal (ch : Char) : Option Nat :=
  if 48 ≤ ch.toNat ∧ ch.toNat ≤ 57 then some (ch.toNat - 48)
  else if 97 ≤ ch.toNat ∧ ch.toNat ≤ 102 then some (ch.toNat - 87)
  else if 65 ≤ ch.toNat ∧ ch.toNat ≤ 70 then some (ch.toNat - 55)
  else none

/-- Decoding of a hexadecimal string into bytes, two digits per byte with the
more significant digit first; `none` when the length is odd or a character is
not a hexadecimal digit. -/
def hexToBytes : List Char → Option (List Nat)
  | [] => some []
  | [_] => none
  | hi :: lo :: rest =>
    match hexVal hi, hexVal lo, hexToBytes rest with
    | some h, some l, some bs => some ((16 * h + l) :: bs)
    | _, _, _ => none

namespace BitsetUtil

variable {N : Nat}

/-- Modelled from the spec: the body of `BitsetUtil::BitsetToBytes` (only
declared in `Bitset.hpp`).  It serialises the low `numbits` bits of `b`,
little-bit-first within each byte; the result is the `ceil(numbits/8)` bytes
written to `out`, the positions of the last byte at or beyond `numbits` being
zero. -/
def BitsetToBytes (b : bitset N) (numbits : Nat) : List Nat :=
  (List.range ((numbits + 7) / 8)).map
    (fun k => ((b.val % 2 ^ numbits) >>> (8 * k)) % 256)

/-- Loop of `BytesToBitset` over the bit positions, `r` left at position `i`:
position `i` is read from bit `i % 8` of byte `i / 8` (a byte beyond the end of
the list reads as zero). -/
def BytesToBitset.loop (bytes : List Nat) : Nat → Nat → bitset N → Except Fault (bitset N)
  | 0, _, ret => .ok ret
  | r + 1, i, ret =>
    if (bytes.getD (i / 8) 0).testBit (i % 8) then
      match ret.set i with
      | .error e => .error e
      | .ok ret1 => BytesToBitset.loop bytes r (i + 1) ret1
    else BytesToBitset.loop bytes r (i + 1) ret

/-- Modelled from the spec: the body of `BitsetUtil::BytesToBitset` (only
declared in `Bitset.hpp`), the inverse of `BitsetToBytes`: it reconstructs a
bitset from `numbits` bits packed in the same byte layout. -/
def BytesToBitset (bytes : List Nat) (numbits : Nat) : Except Fault (bitset N) :=
  BytesToBitset.loop bytes numbits 0 (bitset.zero N)

/-- Modelled from the spec: the body of `BitsetUtil::BitsetToHex` (only
declared in `Bitset.hpp`).  The bytes of `BitsetToBytes` are rendered in order,
each as two hexadecimal digits, the more significant digit (the higher four
bits) first.  The string is given by its list of characters. -/
def BitsetToHex (b : bitset N) (numbits : Nat) : List Char :=
  (BitsetToBytes b numbits).flatMap (fun byte => [hexDigit (byte / 16), hexDigit (byte % 16)])

/-- Modelled from the spec: the body of `BitsetUtil::HexToBitset` (only
declared in `Bitset.hpp`), the inverse of `BitsetToHex`.  It fails with a
reportable error on a string of odd length, on a character that is not a
hexadecimal digit, and when the decoded bit count (four per digit) exceeds
the capacity. -/
def HexToBitset (str : List Char) : Except Fault (bitset N) :=
  match hexToBytes str with
  | none => .error .malformed_input
  | some bytes =>
    if 8 * bytes.length > N then .error .malformed_input
    else BytesToBitset bytes (8 * bytes.length)

end BitsetUtil

/-! ## Theorems -/

theorem intAt_lt {N : Nat} (b : bitset N) (k : Nat) : intAt b k < 2 ^ 32 :=
  Nat.mod_lt _ (Nat.pos_pow_of_pos 32 (by decide))

theorem intAt_testBit {N : Nat} (b : bitset N) (k t : Nat) :
    (intAt b k).testBit t = (decide (t < 32) && b.val.testBit (32 * k + t)) := by
  unfold intAt
  rw [Nat.testBit_mod_two_pow, Nat.testBit_shiftRight]

theorem asInt_inj {v w : Nat} (hv : v < 2 ^ 32) (hw : w < 2 ^ 32)
    (h : asInt v = asInt w) : v = w := by
  unfold asInt at h
  norm_num at hv hw
  split_ifs at h <;> omega

theorem num_covers (N : Nat) : N ≤ 32 * BitsetUtil.num N := by
  unfold BitsetUtil.num sizeof_bitset sizeof_int
  omega

theorem bitset_testBit_of_ge {N : Nat} (b : bitset N) {j : Nat} (h : N ≤ j) :
    b.val.testBit j = false :=
  Nat.testBit_lt_two_pow (Nat.lt_of_lt_of_le b.isLt (Nat.pow_le_pow_right (by decide) h))

theorem bitset_ext_testBit {N : Nat} {a b : bitset N}
    (h : ∀ j, j < N → a.val.testBit j = b.val.testBit j) : a = b := by
  cases a with
  | mk av ha =>
    cases b with
    | mk bv hb =>
      have : av = bv := by
        apply Nat.eq_of_testBit_eq
        intro j
        by_cases hj : j < N
        · exact h j hj
        · have h1 := bitset_testBit_of_ge ⟨av, ha⟩ (Nat.le_of_not_lt hj)
          have h2 := bitset_testBit_of_ge ⟨bv, hb⟩ (Nat.le_of_not_lt hj)
          simp only at h1 h2
          rw [h1, h2]
      subst this
      rfl

theorem testBit_eq_of_intAt_eq {N : Nat} {a b : bitset N} {k : Nat}
    (h : intAt a k = intAt b k) (t : Nat) (ht : t < 32) :
    a.val.testBit (32 * k + t) = b.val.testBit (32 * k + t) := by
  have := congrArg (fun w => w.testBit t) h
  simpa [intAt_testBit, ht] using this

theorem eq_of_intAt_eq {N : Nat} {a b : bitset N}
    (h : ∀ k, k < BitsetUtil.num N → intAt a k = intAt b k) : a = b := by
  apply bitset_ext_testBit
  intro j hj
  have hk : j / 32 < BitsetUtil.num N := by
    have := num_covers N
    omega
  have := testBit_eq_of_intAt_eq (h (j / 32) hk) (j % 32) (Nat.mod_lt _ (by decide))
  rwa [Nat.div_add_mod] at this

namespace BitsetUtil
variable {N : Nat}

theorem IsLessThan_loop_self (a : bitset N) (r i : Nat) :
    IsLessThan.loop a a r i = false := by
  induction r generalizing i with
  | zero => rfl
  | succ r ih => simp [IsLessThan.loop, ih]

theorem IsLessThan_loop_asymm (a b : bitset N) (r i : Nat)
    (h : IsLessThan.loop a b r i = true) : IsLessThan.loop b a r i = false := by
  induction r generalizing i with
  | zero => rfl
  | succ r ih =>
    unfold IsLessThan.loop at h ⊢
    by_cases hw : intAt a i = intAt b i
    · have hw2 : ¬ intAt b i ≠ intAt a i := by simp [hw]
      have hw1 : ¬ intAt a i ≠ intAt b i := by simp [hw]
      rw [if_neg hw1] at h
      rw [if_neg hw2]
      exact ih _ h
    · have hw2 : intAt b i ≠ intAt a i := fun e => hw e.symm
      rw [if_pos hw] at h
      rw [if_pos hw2]
      have := of_decide_eq_true h
      exact decide_eq_false (by omega)

theorem IsLessThan_loop_trans (a b c : bitset N) (r i : Nat)
    (h1 : IsLessThan.loop a b r i = true) (h2 : IsLessThan.loop b c r i = true) :
    IsLessThan.loop a c r i = true := by
  induction r generalizing i with
  | zero => exact h1
  | succ r ih =>
    unfold IsLessThan.loop at h1 h2 ⊢
    by_cases hab : intAt a i = intAt b i
    · rw [if_neg (by simp [hab])] at h1
      by_cases hbc : intAt b i = intAt c i
      · rw [if_neg (by simp [hbc])] at h2
        rw [if_neg (by simp [hab, hbc])]
        exact ih _ h1 h2
      · rw [if_pos hbc] at h2
        rw [hab, if_pos hbc]
        exact h2
    · rw [if_pos hab] at h1
      have l1 := of_decide_eq_true h1
      by_cases hbc : intAt b i = intAt c i
      · rw [← hbc, if_pos hab]
        exact h1
      · rw [if_pos hbc] at h2
        have l2 := of_decide_eq_true h2
        have hac : intAt a i ≠ intAt c i := by
          intro e
          rw [e] at l1
          omega
        rw [if_pos hac]
        exact decide_eq_true (by omega)

theorem IsLessThan_loop_total (a b : bitset N) (r i : Nat)
    (h1 : IsLessThan.loop a b r i = false) (h2 : IsLessThan.loop b a r i = false) :
    ∀ k, i ≤ k → k < i + r → intAt a k = intAt b k := by
  induction r generalizing i with
  | zero => intro k h1 h2; omega
  | succ r ih =>
    unfold IsLessThan.loop at h1 h2
    by_cases hab : intAt a i = intAt b i
    · rw [if_neg (by simp [hab])] at h1 h2
      intro k hk1 hk2
      by_cases hki : k = i
      · rw [hki]; exact hab
      · exact ih _ h1 h2 k (by omega) (by omega)
    · exfalso
      rw [if_pos hab] at h1
      rw [if_pos (fun e => hab e.symm)] at h2
      have l1 := of_decide_eq_false h1
      have l2 := of_decide_eq_false h2
      exact hab (asInt_inj (intAt_lt a i) (intAt_lt b i) (by omega))

theorem IsLessThan_loop_iff (a b : bitset N) (r i : Nat) :
    IsLessThan.loop a b r i = true ↔
      ∃ k, i ≤ k ∧ k < i + r ∧ (∀ j, i ≤ j → j < k → intAt a j = intAt b j) ∧
        asInt (intAt a k) < asInt (intAt b k) := by
  induction r generalizing i with
  | zero =>
    constructor
    · intro h; exact absurd h (by simp [IsLessThan.loop])
    · rintro ⟨k, h1, h2, -⟩; omega
  | succ r ih =>
    unfold IsLessThan.loop
    by_cases hab : intAt a i = intAt b i
    · rw [if_neg (by simp [hab]), ih]
      constructor
      · rintro ⟨k, h1, h2, h3, h4⟩
        refine ⟨k, by omega, by omega, ?_, h4⟩
        intro j hj1 hj2
        by_cases hji : j = i
        · rw [hji]; exact hab
        · exact h3 j (by omega) hj2
      · rintro ⟨k, h1, h2, h3, h4⟩
        have hki : k ≠ i := by
          intro e
          rw [e, hab] at h4
          omega
        exact ⟨k, by omega, by omega, fun j hj1 hj2 => h3 j (by omega) hj2, h4⟩
    · rw [if_pos hab]
      constructor
      · intro h
        exact ⟨i, le_refl _, by omega, fun j hj1 hj2 => by omega, of_decide_eq_true h⟩
      · rintro ⟨k, h1, h2, h3, h4⟩
        by_cases hki : k = i
        · rw [hki] at h4; exact decide_eq_true h4
        · exact absurd (h3 i (le_refl _) (by omega)) hab

end BitsetUtil

/-! ### `IsSubsetOf` -/

theorem int_and_not_eq_zero_iff {v : Nat} (w : Nat) (hv : v < 2 ^ 32) :
    int_and v (int_not w) = 0 ↔ ∀ t, t < 32 → v.testBit t = true → w.testBit t = true := by
  unfold int_and int_not
  constructor
  · intro h t ht hvt
    have := congrArg (fun x => x.testBit t) h
    simp only [Nat.testBit_and, Nat.testBit_xor, Nat.testBit_two_pow_sub_one,
      Nat.zero_testBit, hvt, ht, decide_True, Bool.true_and] at this
    cases hw : w.testBit t
    · rw [hw] at this; exact absurd this (by decide)
    · rfl
  · intro h
    apply Nat.eq_of_testBit_eq
    intro t
    simp only [Nat.testBit_and, Nat.testBit_xor, Nat.testBit_two_pow_sub_one, Nat.zero_testBit]
    by_cases ht : t < 32
    · cases hvt : v.testBit t
      · rfl
      · simp [h t ht hvt, ht]
    · have : v.testBit t = false :=
        Nat.testBit_lt_two_pow
          (Nat.lt_of_lt_of_le hv (Nat.pow_le_pow_right (by decide) (Nat.le_of_not_lt ht)))
      simp [this]

namespace BitsetUtil
variable {N : Nat}

theorem IsSubsetOf_loop_iff (a b : bitset N) (r i : Nat) :
    IsSubsetOf.loop a b r i = true ↔
      ∀ k, i ≤ k → k < i + r → ∀ t, t < 32 →
        a.val.testBit (32 * k + t) = true → b.val.testBit (32 * k + t) = true := by
  induction r generalizing i with
  | zero =>
    constructor
    · intro _ k h1 h2; omega
    · intro _; rfl
  | succ r ih =>
    unfold IsSubsetOf.loop
    have hw := int_and_not_eq_zero_iff (intAt b i) (intAt_lt a i)
    simp only [intAt_testBit] at hw
    by_cases hz : int_and (intAt a i) (int_not (intAt b i)) = 0
    · rw [if_neg (by simp [hz]), ih]
      have hi := hw.mp hz
      constructor
      · intro h k hk1 hk2 t ht hat
        by_cases hki : k = i
        · subst hki
          simpa [ht] using hi t ht (by simp [ht, hat])
        · exact h k (by omega) (by omega) t ht hat
      · intro h k hk1 hk2
        exact h k (by omega) (by omega)
    · rw [if_pos hz]
      constructor
      · intro h; exact absurd h (by decide)
      · intro h
        exfalso
        apply hz
        apply hw.mpr
        intro t ht hat
        simp only [ht, decide_True, Bool.true_and] at hat ⊢
        exact h i (le_refl _) (by omega) t ht hat

theorem IsSubsetOf_iff (a b : bitset N) :
    IsSubsetOf a b = true ↔ ∀ j, j < N → a.val.testBit j = true → b.val.testBit j = true := by
  unfold IsSubsetOf
  rw [IsSubsetOf_loop_iff]
  constructor
  · intro h j hj haj
    have hk : j / 32 < num N := by
      have := num_covers N
      omega
    have := h (j / 32) (Nat.zero_le _) (by omega) (j % 32) (Nat.mod_lt _ (by decide))
    rw [Nat.div_add_mod] at this
    exact this haj
  · intro h k _ _ t _ hat
    by_cases hj : 32 * k + t < N
    · exact h _ hj hat
    · rw [bitset_testBit_of_ge a (Nat.le_of_not_lt hj)] at hat
      exact absurd hat (by decide)

theorem IsSubsetOf_fallback_iff (a b : bitset N) :
    IsSubsetOf_fallback a b = true ↔
      ∀ j, j < N → a.val.testBit j = true → b.val.testBit j = true := by
  unfold IsSubsetOf_fallback
  rw [decide_eq_true_iff]
  constructor
  · intro h j _ haj
    have := congrArg (fun x => x.val.testBit j) h
    simp only [bitset.and, Nat.testBit_and, haj, Bool.true_and] at this
    exact this
  · intro h
    apply bitset_ext_testBit
    intro j hj
    simp only [bitset.and, Nat.testBit_and]
    cases haj : a.val.testBit j
    · rfl
    · simp [h j hj haj]

theorem test_eq_ok_true_iff (b : bitset N) (i : Nat) :
    b.test i = .ok true ↔ i < N ∧ b.val.testBit i = true := by
  unfold bitset.test
  by_cases h : i < N
  · simp [h]
  · simp [h]

end BitsetUtil

/-! ### Index collections -/

theorem static_cast_int_of_range {x : Int} (h0 : -2 ^ 31 ≤ x) (h1 : x < 2 ^ 31) :
    static_cast_int x = x := by
  unfold static_cast_int
  have e31 : (2 : Int) ^ 31 = 2147483648 := by norm_num
  have e32 : (2 : Int) ^ 32 = 4294967296 := by norm_num
  rw [e31] at h0 h1
  rw [e31, e32]
  omega

theorem static_cast_int_range (x : Int) :
    -2 ^ 31 ≤ static_cast_int x ∧ static_cast_int x < 2 ^ 31 := by
  unfold static_cast_int
  have e31 : (2 : Int) ^ 31 = 2147483648 := by norm_num
  have e32 : (2 : Int) ^ 32 = 4294967296 := by norm_num
  rw [e31, e32]
  omega

theorem BITSETSIZE_le_int (c : Build) : BITSETSIZE c ≤ 2 ^ 31 := by
  cases c <;> decide

theorem to_size_t_natCast {i : Nat} (h : i < 2 ^ 64) : to_size_t (i : Int) = i := by
  unfold to_size_t
  have e : (2 : Int) ^ 64 = 18446744073709551616 := by norm_num
  have e2 : (2 : Nat) ^ 64 = 18446744073709551616 := by norm_num
  rw [e]
  rw [e2] at h
  omega

theorem to_size_t_of_nonneg {x : Int} (h0 : 0 ≤ x) (h1 : x < 2 ^ 64) :
    to_size_t x = x.toNat := by
  unfold to_size_t
  have e : (2 : Int) ^ 64 = 18446744073709551616 := by norm_num
  rw [e] at h1 ⊢
  omega

theorem BITSETSIZE_le_size_t (c : Build) : BITSETSIZE c ≤ 2 ^ 64 := by
  cases c <;> decide

theorem bitset_popcount_eq (k n : Nat) :
    bitset.popcount k n = ((List.range k).filter (fun j => n.testBit j)).length := by
  induction k generalizing n with
  | zero => rfl
  | succ k ih =>
    rw [bitset.popcount, ih, List.range_succ_eq_map, List.filter_cons, List.filter_map,
      Nat.testBit_zero]
    have hf : ((fun j => n.testBit j) ∘ Nat.succ) = fun j => (n / 2).testBit j := by
      funext j
      exact Nat.testBit_succ n j
    rw [hf]
    by_cases h : n % 2 = 1
    · simp [h, Nat.add_comm]
    · have h0 : n % 2 = 0 := by omega
      simp [h0]

namespace BitsetUtil
variable {N : Nat}

theorem BitsetToVector_loop_eq (b : bitset N) (hN : N ≤ 2 ^ 64) (r i : Nat) (acc : List Int)
    (h : i + r ≤ N) :
    BitsetToVector.loop b r i acc =
      .ok (acc ++ ((List.range' i r).filter (fun j => b.val.testBit j)).map Nat.cast) := by
  induction r generalizing i acc with
  | zero => simp [BitsetToVector.loop]
  | succ r ih =>
    have hi : i < N := by omega
    have hs : to_size_t (i : Int) = i := to_size_t_natCast (by omega)
    unfold BitsetToVector.loop
    rw [hs]
    unfold bitset.test
    rw [if_pos hi, List.range'_succ, List.filter_cons]
    cases hb : b.val.testBit i
    · simp only [Bool.false_eq_true, if_false]
      exact ih (i + 1) acc (by omega)
    · simp only [if_true, List.map_cons]
      rw [ih (i + 1) _ (by omega)]
      simp [vector_push_back]

theorem BitsetToVector_eq (b : bitset N) (hN : N ≤ 2 ^ 64) (old : List Int) :
    BitsetToVector b old =
      .ok (((List.range N).filter (fun j => b.val.testBit j)).map Nat.cast) := by
  unfold BitsetToVector
  rw [BitsetToVector_loop_eq b hN N 0 _ (by omega)]
  simp only [vector_clear, List.nil_append, List.length_map]
  rw [← List.range_eq_range', if_pos]
  exact bitset_popcount_eq N b.val

theorem setBits_sorted (n N : Nat) :
    List.Sorted (· < ·)
      ((((List.range N).filter (fun j => n.testBit j)).map Nat.cast) : List Int) := by
  apply List.Pairwise.map
  · intro a b hab
    exact Int.ofNat_lt.mpr hab
  · exact List.Pairwise.filter _ (List.sorted_lt_range N)

theorem mem_setBits (n N : Nat) (x : Int) :
    x ∈ ((((List.range N).filter (fun j => n.testBit j)).map Nat.cast) : List Int) ↔
      ∃ i, i < N ∧ n.testBit i = true ∧ x = (i : Int) := by
  simp only [List.mem_map, List.mem_filter, List.mem_range]
  constructor
  · rintro ⟨i, ⟨h1, h2⟩, h3⟩
    exact ⟨i, h1, h2, h3.symm⟩
  · rintro ⟨i, h1, h2, h3⟩
    exact ⟨i, ⟨h1, h2⟩, h3.symm⟩

theorem SetToBitset_loop_spec (hN : N ≤ 2 ^ 64) (l : List Int) (ret : bitset N)
    (h : ∀ x ∈ l, 0 ≤ static_cast_int x ∧ static_cast_int x < (N : Int)) :
    ∃ r : bitset N, SetToBitset.loop l ret = .ok r ∧
      ∀ j : Nat, r.val.testBit j =
        (ret.val.testBit j || decide ((j : Int) ∈ l.map static_cast_int)) := by
  induction l generalizing ret with
  | nil => exact ⟨ret, rfl, by simp⟩
  | cons x l ih =>
    obtain ⟨hx0, hx1⟩ := h x (List.mem_cons_self _ _)
    have hlt : (static_cast_int x).toNat < N := by omega
    have hs : to_size_t (static_cast_int x) = (static_cast_int x).toNat := by
      apply to_size_t_of_nonneg hx0
      have : ((N : Nat) : Int) ≤ ((2 ^ 64 : Nat) : Int) := Int.ofNat_le.mpr hN
      have e : ((2 ^ 64 : Nat) : Int) = 2 ^ 64 := by norm_num
      omega
    unfold SetToBitset.loop
    rw [hs]
    unfold bitset.set
    rw [dif_pos hlt]
    obtain ⟨r, hr, hbits⟩ := ih _ (fun y hy => h y (List.mem_cons_of_mem _ hy))
    refine ⟨r, hr, ?_⟩
    intro j
    rw [hbits j]
    simp only [Nat.testBit_or, Nat.testBit_two_pow, List.map_cons, List.mem_cons,
      Bool.or_assoc]
    congr 1
    have : ((static_cast_int x).toNat = j) ↔ ((j : Int) = static_cast_int x) := by omega
    by_cases hj : (j : Int) = static_cast_int x
    · simp [hj, this.mpr hj]
    · have : ¬ (static_cast_int x).toNat = j := fun e => hj (this.mp e)
      simp [hj, this]

theorem SetToBitset_cast_spec (hN : N ≤ 2 ^ 64) (l : List Int)
    (h : ∀ x ∈ l, 0 ≤ static_cast_int x ∧ static_cast_int x < (N : Int)) :
    ∃ r : bitset N, SetToBitset l = .ok r ∧
      ∀ j : Nat, r.val.testBit j = decide ((j : Int) ∈ l.map static_cast_int) := by
  obtain ⟨r, hr, hbits⟩ := SetToBitset_loop_spec hN l (bitset.zero N) h
  refine ⟨r, hr, ?_⟩
  intro j
  rw [hbits j]
  simp [bitset.zero]

theorem SetToBitset_spec (hN : N ≤ 2 ^ 31) (l : List Int)
    (h : ∀ x ∈ l, 0 ≤ x ∧ x < (N : Int)) :
    ∃ r : bitset N, SetToBitset l = .ok r ∧
      ∀ j : Nat, r.val.testBit j = decide ((j : Int) ∈ l) := by
  have hNi : ((N : Nat) : Int) ≤ 2 ^ 31 := by
    have : ((N : Nat) : Int) ≤ ((2 ^ 31 : Nat) : Int) := Int.ofNat_le.mpr hN
    have e : ((2 ^ 31 : Nat) : Int) = 2 ^ 31 := by norm_num
    omega
  have hid : ∀ x ∈ l, static_cast_int x = x := by
    intro x hx
    obtain ⟨h0, h1⟩ := h x hx
    exact static_cast_int_of_range (by
      have e31 : (2 : Int) ^ 31 = 2147483648 := by norm_num
      rw [e31]
      omega) (by omega)
  have hmap : l.map static_cast_int = l := by
    conv_rhs => rw [← List.map_id l]
    exact List.map_congr_left hid
  have h64 : N ≤ 2 ^ 64 := le_trans hN (Nat.pow_le_pow_right (by decide) (by decide))
  have hc : ∀ x ∈ l, 0 ≤ static_cast_int x ∧ static_cast_int x < (N : Int) := by
    intro x hx
    rw [hid x hx]
    exact h x hx
  obtain ⟨r, hr, hbits⟩ := SetToBitset_cast_spec h64 l hc
  rw [hmap] at hbits
  exact ⟨r, hr, hbits⟩

end BitsetUtil

/-! ### Subtraction, failure of `SetToBitset`, sorted index lists -/

namespace BitsetUtil
variable {N : Nat}

theorem Subtract_testBit (a b : bitset N) (i : Nat) (hi : i < N) :
    (Subtract a b).val.testBit i = (a.val.testBit i && !b.val.testBit i) := by
  simp only [Subtract, bitset.and, bitset.flip, Nat.testBit_and, Nat.testBit_xor,
    Nat.testBit_two_pow_sub_one, hi, decide_True, Bool.xor_true]

theorem to_size_t_of_neg {x : Int} (h0 : x < 0) (h1 : -2 ^ 31 ≤ x) :
    2 ^ 64 - 2 ^ 31 ≤ to_size_t x := by
  unfold to_size_t
  have e : (2 : Int) ^ 64 = 18446744073709551616 := by norm_num
  have e1 : (2 : Int) ^ 31 = 2147483648 := by norm_num
  have e2 : (2 : Nat) ^ 64 - 2 ^ 31 = 18446744071562067968 := by norm_num
  rw [e1] at h1
  rw [e, e2]
  omega

theorem SetToBitset_loop_error (hN : N ≤ 2 ^ 31) (l : List Int) (ret : bitset N)
    (h : ∃ x ∈ l, static_cast_int x < 0 ∨ (N : Int) ≤ static_cast_int x) :
    SetToBitset.loop l ret = .error .out_of_range := by
  induction l generalizing ret with
  | nil =>
    obtain ⟨x, hx, -⟩ := h
    cases hx
  | cons z l ih =>
    have e31 : (2 : Int) ^ 31 = 2147483648 := by norm_num
    have n31 : (2 : Nat) ^ 31 = 2147483648 := by norm_num
    have n64 : (2 : Nat) ^ 64 - 2 ^ 31 = 18446744071562067968 := by norm_num
    rw [n31] at hN
    by_cases hin : 0 ≤ static_cast_int z ∧ static_cast_int z < (N : Int)
    · have hs : to_size_t (static_cast_int z) = (static_cast_int z).toNat := by
        apply to_size_t_of_nonneg hin.1
        have e : (2 : Int) ^ 64 = 18446744073709551616 := by norm_num
        omega
      have hlt : (static_cast_int z).toNat < N := by omega
      unfold SetToBitset.loop
      rw [hs]
      unfold bitset.set
      rw [dif_pos hlt]
      apply ih
      obtain ⟨x, hx, hbad⟩ := h
      rcases List.mem_cons.mp hx with rfl | hx
      · omega
      · exact ⟨x, hx, hbad⟩
    · have hz := static_cast_int_range z
      rw [e31] at hz
      have hge : N ≤ to_size_t (static_cast_int z) := by
        by_cases hneg : static_cast_int z < 0
        · have := to_size_t_of_neg hneg (by rw [e31]; exact hz.1)
          omega
        · have hs : to_size_t (static_cast_int z) = (static_cast_int z).toNat := by
            apply to_size_t_of_nonneg (by omega)
            have e : (2 : Int) ^ 64 = 18446744073709551616 := by norm_num
            omega
          omega
      unfold SetToBitset.loop bitset.set
      rw [dif_neg (by omega)]

theorem sorted_lt_ext {l1 l2 : List Int} (h1 : List.Sorted (· < ·) l1)
    (h2 : List.Sorted (· < ·) l2) (h : ∀ x, x ∈ l1 ↔ x ∈ l2) : l1 = l2 := by
  apply List.eq_of_perm_of_sorted ((List.perm_ext_iff_of_nodup h1.nodup h2.nodup).mpr h) h1 h2

end BitsetUtil

/-! ### Serialisation -/

namespace BitsetUtil
variable {N : Nat}

theorem byte_testBit (v nb k j : Nat) :
    (((v % 2 ^ nb) >>> (8 * k)) % 256).testBit j =
      (decide (j < 8) && (decide (8 * k + j < nb) && v.testBit (8 * k + j))) := by
  have e : (256 : Nat) = 2 ^ 8 := by norm_num
  rw [e, Nat.testBit_mod_two_pow, Nat.testBit_shiftRight, Nat.testBit_mod_two_pow]

theorem BitsetToBytes_length (b : bitset N) (nb : Nat) :
    (BitsetToBytes b nb).length = (nb + 7) / 8 := by
  simp [BitsetToBytes]

theorem BitsetToBytes_getD (b : bitset N) (nb k : Nat) :
    (BitsetToBytes b nb).getD k 0 =
      if k < (nb + 7) / 8 then ((b.val % 2 ^ nb) >>> (8 * k)) % 256 else 0 := by
  unfold BitsetToBytes
  by_cases h : k < (nb + 7) / 8
  · rw [if_pos h, List.getD_eq_getElem?_getD, List.getElem?_map, List.getElem?_range h]
    rfl
  · rw [if_neg h, List.getD_eq_getElem?_getD, List.getElem?_eq_none]
    · rfl
    · rw [List.length_map, List.length_range]
      omega

theorem BitsetToBytes_testBit (b : bitset N) (nb i : Nat) :
    ((BitsetToBytes b nb).getD (i / 8) 0).testBit (i % 8) =
      (decide (i < nb) && b.val.testBit i) := by
  rw [BitsetToBytes_getD]
  by_cases h : i / 8 < (nb + 7) / 8
  · rw [if_pos h, byte_testBit, Nat.div_add_mod]
    have : i % 8 < 8 := Nat.mod_lt _ (by decide)
    simp [this]
  · rw [if_neg h]
    have : ¬ i < nb := by omega
    simp [this]

theorem BytesToBitset_loop_spec (bytes : List Nat) (r i : Nat) (ret : bitset N)
    (h : i + r ≤ N) :
    ∃ out : bitset N, BytesToBitset.loop bytes r i ret = .ok out ∧
      ∀ j : Nat, out.val.testBit j =
        (ret.val.testBit j ||
          (decide (i ≤ j ∧ j < i + r) && (bytes.getD (j / 8) 0).testBit (j % 8))) := by
  induction r generalizing i ret with
  | zero =>
    refine ⟨ret, rfl, ?_⟩
    intro j
    have : ¬ (i ≤ j ∧ j < i + 0) := by omega
    simp [this]
  | succ r ih =>
    have hi : i < N := by omega
    unfold BytesToBitset.loop
    by_cases hb : (bytes.getD (i / 8) 0).testBit (i % 8) = true
    · rw [if_pos hb]
      unfold bitset.set
      rw [dif_pos hi]
      obtain ⟨out, hout, hbits⟩ := ih (i + 1) ⟨ret.val ||| 2 ^ i, _⟩ (by omega)
      refine ⟨out, hout, ?_⟩
      intro j
      rw [hbits j]
      simp only [Nat.testBit_or, Nat.testBit_two_pow]
      by_cases hji : i = j
      · subst hji
        have : (i ≤ i ∧ i < i + (r + 1)) := by omega
        rw [hb]
        simp [this]
      · have e : (i + 1 ≤ j ∧ j < i + 1 + r) ↔ (i ≤ j ∧ j < i + (r + 1)) := by omega
        simp [hji, e]
    · rw [if_neg hb]
      obtain ⟨out, hout, hbits⟩ := ih (i + 1) ret (by omega)
      refine ⟨out, hout, ?_⟩
      intro j
      rw [hbits j]
      by_cases hji : i = j
      · subst hji
        rw [Bool.not_eq_true] at hb
        have : ¬ (i + 1 ≤ i ∧ i < i + 1 + r) := by omega
        rw [hb]
        simp [this]
      · have e : (i + 1 ≤ j ∧ j < i + 1 + r) ↔ (i ≤ j ∧ j < i + (r + 1)) := by omega
        simp [e]

theorem BytesToBitset_BitsetToBytes_gen (b : bitset N) (nb m : Nat) (h1 : nb ≤ m)
    (h2 : m ≤ N) (hb : ∀ i, b.val.testBit i = true → i < nb) :
    BytesToBitset (BitsetToBytes b nb) m = .ok b := by
  unfold BytesToBitset
  obtain ⟨out, hout, hbits⟩ :=
    BytesToBitset_loop_spec (BitsetToBytes b nb) m 0 (bitset.zero N) (by omega)
  rw [hout]
  congr 1
  apply bitset_ext_testBit
  intro j _
  rw [hbits j, BitsetToBytes_testBit]
  cases hj : b.val.testBit j
  · simp [bitset.zero]
  · have := hb j hj
    have h3 : j < m := by omega
    simp [bitset.zero, this, h3]

end BitsetUtil

theorem hexVal_hexDigit {n : Nat} (h : n < 16) : hexVal (hexDigit n) = some n := by
  have key : ∀ m : Fin 16, hexVal (hexDigit m.val) = some m.val := by decide
  exact key ⟨n, h⟩

theorem hexToBytes_encode (bs : List Nat) (h : ∀ x ∈ bs, x < 256) :
    hexToBytes (bs.flatMap (fun byte => [hexDigit (byte / 16), hexDigit (byte % 16)])) =
      some bs := by
  induction bs with
  | nil => rfl
  | cons x bs ih =>
    have hx : x < 256 := h x (List.mem_cons_self _ _)
    have h1 : hexVal (hexDigit (x / 16)) = some (x / 16) := hexVal_hexDigit (by omega)
    have h2 : hexVal (hexDigit (x % 16)) = some (x % 16) := hexVal_hexDigit (by omega)
    have h3 := ih (fun y hy => h y (List.mem_cons_of_mem _ hy))
    rw [List.flatMap_cons, List.cons_append, List.cons_append, List.nil_append, hexToBytes,
      h1, h2, h3]
    have : 16 * (x / 16) + x % 16 = x := Nat.div_add_mod x 16
    simp only [this]

theorem hexToBytes_eq_some (str : List Char) :
    ∀ bs, hexToBytes str = some bs →
      str.length = 2 * bs.length ∧ ∀ ch ∈ str, hexVal ch ≠ none := by
  induction str using hexToBytes.induct with
  | case1 =>
    intro bs h
    simp only [hexToBytes, Option.some.injEq] at h
    subst h
    exact ⟨rfl, fun ch hch => by cases hch⟩
  | case2 head =>
    intro bs h
    simp [hexToBytes] at h
  | case3 hi lo rest h l bs0 hrest hlo hhi ih =>
    intro bs hbs
    rw [hexToBytes, hhi, hlo, hrest] at hbs
    simp only [Option.some.injEq] at hbs
    subst hbs
    obtain ⟨hlen, hall⟩ := ih bs0 hrest
    refine ⟨by simp only [List.length_cons, hlen]; omega, ?_⟩
    intro ch hch
    rcases List.mem_cons.mp hch with rfl | hch
    · rw [hhi]; exact Option.some_ne_none _
    · rcases List.mem_cons.mp hch with rfl | hch
      · rw [hlo]; exact Option.some_ne_none _
      · exact hall ch hch
  | case4 hi lo rest hnone _ =>
    intro bs hbs
    exfalso
    rw [hexToBytes] at hbs
    cases h1 : hexVal hi with
    | none => simp [h1] at hbs
    | some h =>
      cases h2 : hexVal lo with
      | none => simp [h1, h2] at hbs
      | some l =>
        cases h3 : hexToBytes rest with
        | none => simp [h1, h2, h3] at hbs
        | some bs0 => exact hnone h l bs0 h1 h2 h3

theorem hexToBytes_of_wellformed (str : List Char) :
    str.length % 2 = 0 → (∀ ch ∈ str, hexVal ch ≠ none) →
      ∃ bs, hexToBytes str = some bs := by
  induction str using hexToBytes.induct with
  | case1 => intro _ _; exact ⟨[], rfl⟩
  | case2 head =>
    intro h _
    simp at h
  | case3 hi lo rest h l bs0 hrest hlo hhi _ =>
    intro _ _
    refine ⟨(16 * h + l) :: bs0, ?_⟩
    rw [hexToBytes, hhi, hlo, hrest]
  | case4 hi lo rest hnone ih =>
    intro hlen hall
    exfalso
    have hlen2 : rest.length % 2 = 0 := by
      simp only [List.length_cons] at hlen
      omega
    obtain ⟨bs0, h3⟩ := ih hlen2 (fun ch hch =>
      hall ch (List.mem_cons_of_mem _ (List.mem_cons_of_mem _ hch)))
    cases h1 : hexVal hi with
    | none => exact hall hi (List.mem_cons_self _ _) h1
    | some h =>
      cases h2 : hexVal lo with
      | none => exact hall lo (List.mem_cons_of_mem _ (List.mem_cons_self _ _)) h2
      | some l => exact hnone h l bs0 h1 h2 h3

namespace BitsetUtil
variable {N : Nat}

theorem BitsetToBytes_lt (b : bitset N) (nb : Nat) : ∀ x ∈ BitsetToBytes b nb, x < 256 := by
  intro x hx
  unfold BitsetToBytes at hx
  obtain ⟨k, -, rfl⟩ := List.mem_map.mp hx
  exact Nat.mod_lt _ (by decide)

theorem HexToBitset_BitsetToHex_gen (b : bitset N) (nb : Nat) (h8 : N % 8 = 0)
    (h1 : nb ≤ N) (hb : ∀ i, b.val.testBit i = true → i < nb) :
    HexToBitset (BitsetToHex b nb) = .ok b := by
  unfold HexToBitset BitsetToHex
  rw [hexToBytes_encode _ (BitsetToBytes_lt b nb)]
  simp only
  rw [BitsetToBytes_length]
  have hle : 8 * ((nb + 7) / 8) ≤ N := by omega
  rw [if_neg (by omega)]
  exact BytesToBitset_BitsetToBytes_gen b nb _ (by omega) hle hb

theorem testBit_lt_of_test {b : bitset N} {nb : Nat}
    (hb : ∀ i, b.test i = .ok true → i < nb) : ∀ i, b.val.testBit i = true → i < nb := by
  intro i hi
  apply hb
  rw [test_eq_ok_true_iff]
  refine ⟨?_, hi⟩
  by_contra hge
  rw [bitset_testBit_of_ge b (Nat.le_of_not_lt hge)] at hi
  exact absurd hi (by decide)

end BitsetUtil

/-! ### Signed words, first differences, the unoptimised ordering -/

theorem lt_two_pow_31_iff {x : Nat} (hx : x < 2 ^ 32) : x < 2 ^ 31 ↔ x.testBit 31 = false := by
  constructor
  · exact fun h => Nat.testBit_lt_two_pow h
  · intro h
    apply Nat.lt_pow_two_of_testBit
    intro i hi
    by_cases h31 : i = 31
    · rw [h31]; exact h
    · exact Nat.testBit_lt_two_pow
        (Nat.lt_of_lt_of_le hx (Nat.pow_le_pow_right (by decide) (by omega)))

theorem asInt_lt_of_same_sign {x y : Nat} (hx : x < 2 ^ 32) (hy : y < 2 ^ 32)
    (hs : x.testBit 31 = y.testBit 31) : asInt x < asInt y ↔ x < y := by
  have h1 := lt_two_pow_31_iff hx
  have h2 := lt_two_pow_31_iff hy
  rw [hs] at h1
  have h3 : x < 2 ^ 31 ↔ y < 2 ^ 31 := h1.trans h2.symm
  unfold asInt
  have e31 : (2 : Nat) ^ 31 = 2147483648 := by norm_num
  have e32 : (2 : Int) ^ 32 = 4294967296 := by norm_num
  rw [e31] at h3
  rw [e31, e32]
  by_cases hx1 : x < 2147483648
  · have hy1 := h3.mp hx1
    rw [if_pos hx1, if_pos hy1]
    omega
  · have hy1 : ¬ y < 2147483648 := fun h => hx1 (h3.mpr h)
    rw [if_neg hx1, if_neg hy1]
    omega

theorem asInt_lt_of_sign {x y : Nat} (hx : x < 2 ^ 32) (hy : y < 2 ^ 32)
    (h1 : x.testBit 31 = true) (h2 : y.testBit 31 = false) : asInt x < asInt y := by
  have hx1 : ¬ x < 2 ^ 31 := by
    intro h
    rw [(lt_two_pow_31_iff hx).mp h] at h1
    exact absurd h1 (by decide)
  have hy1 : y < 2 ^ 31 := (lt_two_pow_31_iff hy).mpr h2
  unfold asInt
  have e31 : (2 : Nat) ^ 31 = 2147483648 := by norm_num
  have e32 : (2 : Int) ^ 32 = 4294967296 := by norm_num
  have e32n : (2 : Nat) ^ 32 = 4294967296 := by norm_num
  rw [e32n] at hx
  rw [e31] at hx1 hy1
  rw [e31, e32, if_neg hx1, if_pos hy1]
  omega

theorem exists_first {P : Nat → Prop} [DecidablePred P] {n : Nat} (h : ∃ k, k < n ∧ P k) :
    ∃ k, k < n ∧ P k ∧ ∀ j, j < k → ¬ P j := by
  have hex : ∃ k, P k := by
    obtain ⟨k, -, hk⟩ := h
    exact ⟨k, hk⟩
  refine ⟨Nat.find hex, ?_, Nat.find_spec hex, fun j hj => Nat.find_min hex hj⟩
  obtain ⟨k, hkn, hk⟩ := h
  exact Nat.lt_of_le_of_lt (Nat.find_min' hex hk) hkn

theorem intAt_eq_of_testBit_eq {N : Nat} {a b : bitset N} {k : Nat}
    (h : ∀ t, t < 32 → a.val.testBit (32 * k + t) = b.val.testBit (32 * k + t)) :
    intAt a k = intAt b k := by
  apply Nat.eq_of_testBit_eq
  intro t
  rw [intAt_testBit, intAt_testBit]
  by_cases ht : t < 32
  · rw [h t ht]
  · simp [ht]

namespace BitsetUtil
variable {N : Nat}

theorem exists_first_word_ne {a b : bitset N} (h : a ≠ b) :
    ∃ k, k < num N ∧ intAt a k ≠ intAt b k ∧ ∀ j, j < k → intAt a j = intAt b j := by
  have hex : ∃ k, k < num N ∧ intAt a k ≠ intAt b k := by
    by_contra hno
    apply h
    apply eq_of_intAt_eq
    intro k hk
    by_contra hne
    exact hno ⟨k, hk, hne⟩
  obtain ⟨k, h1, h2, h3⟩ := exists_first hex
  exact ⟨k, h1, h2, fun j hj => not_not.mp (h3 j hj)⟩

theorem IsLessThan_at_first_word {a b : bitset N} {k : Nat} (hk : k < num N)
    (heq : ∀ j, j < k → intAt a j = intAt b j) (hne : intAt a k ≠ intAt b k) :
    IsLessThan a b = decide (asInt (intAt a k) < asInt (intAt b k)) := by
  rw [Bool.eq_iff_iff, decide_eq_true_iff]
  unfold IsLessThan
  rw [IsLessThan_loop_iff]
  constructor
  · rintro ⟨k2, -, -, h3, h4⟩
    have hk2 : k2 = k := by
      rcases Nat.lt_trichotomy k2 k with hlt | he | hgt
      · have := heq k2 hlt
        rw [this] at h4
        exact absurd h4 (lt_irrefl _)
      · exact he
      · exact absurd (h3 k (Nat.zero_le _) hgt) hne
    rw [hk2] at h4
    exact h4
  · intro h
    exact ⟨k, Nat.zero_le _, by omega, fun j _ hj => heq j hj, h⟩

theorem IsLessThan_fallback_loop_iff (a b : bitset N) (hN : N ≤ 2 ^ 64) (r i : Nat)
    (h : i + r ≤ N) :
    IsLessThan_fallback.loop a b r i = true ↔
      ∃ k, i ≤ k ∧ k < i + r ∧ (∀ j, i ≤ j → j < k → a.get j = b.get j) ∧
        a.get k = false ∧ b.get k = true := by
  induction r generalizing i with
  | zero =>
    constructor
    · intro h; exact absurd h (by simp [IsLessThan_fallback.loop])
    · rintro ⟨k, h1, h2, -⟩; omega
  | succ r ih =>
    have hs : to_size_t (i : Int) = i := to_size_t_natCast (by omega)
    unfold IsLessThan_fallback.loop
    rw [hs]
    by_cases hab : a.get i = b.get i
    · rw [if_neg (by simp [hab]), ih (i + 1) (by omega)]
      constructor
      · rintro ⟨k, h1, h2, h3, h4⟩
        refine ⟨k, by omega, by omega, ?_, h4⟩
        intro j hj1 hj2
        by_cases hji : j = i
        · rw [hji]; exact hab
        · exact h3 j (by omega) hj2
      · rintro ⟨k, h1, h2, h3, h4, h5⟩
        have hki : k ≠ i := by
          intro e
          rw [e] at h4 h5
          rw [hab, h5] at h4
          exact absurd h4 (by decide)
        exact ⟨k, by omega, by omega, fun j hj1 hj2 => h3 j (by omega) hj2, h4, h5⟩
    · rw [if_pos hab]
      constructor
      · intro h
        have ha : a.get i = false := by simpa using h
        have hb : b.get i = true := by
          cases hb : b.get i
          · exact absurd (ha.trans hb.symm) hab
          · rfl
        exact ⟨i, le_refl _, by omega, fun j hj1 hj2 => by omega, ha, hb⟩
      · rintro ⟨k, h1, h2, h3, h4, h5⟩
        by_cases hki : k = i
        · rw [hki] at h4
          simp [h4]
        · exact absurd (h3 i (le_refl _) (by omega)) hab

theorem IsLessThan_fallback_iff (a b : bitset N) (hN : N ≤ 2 ^ 64) :
    IsLessThan_fallback a b = true ↔
      ∃ i, i < N ∧ (∀ j, j < i → a.get j = b.get j) ∧ a.get i = false ∧ b.get i = true := by
  unfold IsLessThan_fallback
  rw [IsLessThan_fallback_loop_iff a b hN N 0 (by omega)]
  constructor
  · rintro ⟨k, -, h2, h3, h4⟩
    exact ⟨k, by omega, fun j hj => h3 j (Nat.zero_le _) hj, h4⟩
  · rintro ⟨k, h2, h3, h4⟩
    exact ⟨k, Nat.zero_le _, by omega, fun j _ hj => h3 j hj, h4⟩

theorem IsLessThan_fallback_at_first_bit {a b : bitset N} (hN : N ≤ 2 ^ 64) {i : Nat}
    (hi : i < N) (heq : ∀ j, j < i → a.get j = b.get j) (hne : a.get i ≠ b.get i) :
    IsLessThan_fallback a b = !a.get i := by
  rw [Bool.eq_iff_iff, IsLessThan_fallback_iff a b hN]
  constructor
  · rintro ⟨k, -, h3, h4, h5⟩
    have hki : k = i := by
      rcases Nat.lt_trichotomy k i with hlt | he | hgt
      · have := heq k hlt
        rw [h4, h5] at this
        exact absurd this (by decide)
      · exact he
      · exact absurd (h3 i hgt) hne
    rw [← hki, h4]
    rfl
  · intro h
    have ha : a.get i = false := by simpa using h
    have hb : b.get i = true := by
      cases hb : b.get i
      · exact absurd (ha.trans hb.symm) hne
      · rfl
    exact ⟨i, hi, heq, ha, hb⟩

theorem exists_first_bit_ne {a b : bitset N} (h : a ≠ b) :
    ∃ i, i < N ∧ a.get i ≠ b.get i ∧ ∀ j, j < i → a.get j = b.get j := by
  have hex : ∃ i, i < N ∧ a.get i ≠ b.get i := by
    by_contra hno
    apply h
    apply bitset_ext_testBit
    intro j hj
    by_contra hne
    exact hno ⟨j, hj, hne⟩
  obtain ⟨i, h1, h2, h3⟩ := exists_first hex
  exact ⟨i, h1, h2, fun j hj => not_not.mp (h3 j hj)⟩

theorem IsLessThan_fallback_both_false_iff (a b : bitset N) (hN : N ≤ 2 ^ 64) :
    (IsLessThan_fallback a b = false ∧ IsLessThan_fallback b a = false) ↔ a = b := by
  constructor
  · rintro ⟨h1, h2⟩
    by_contra hne
    obtain ⟨i, hi, hd, heq⟩ := exists_first_bit_ne hne
    rw [IsLessThan_fallback_at_first_bit hN hi heq hd] at h1
    rw [IsLessThan_fallback_at_first_bit hN hi (fun j hj => (heq j hj).symm)
      (fun e => hd e.symm)] at h2
    apply hd
    cases ha : a.get i
    · rw [ha] at h1
      exact absurd h1 (by decide)
    · cases hb : b.get i
      · rw [hb] at h2
        exact absurd h2 (by decide)
      · rfl
  · intro e
    subst e
    have : IsLessThan_fallback a a = false := by
      rw [← Bool.not_eq_true, IsLessThan_fallback_iff a a hN]
      rintro ⟨i, -, -, h4, h5⟩
      rw [h4] at h5
      exact absurd h5 (by decide)
    exact ⟨this, this⟩

end BitsetUtil

theorem word_lt_of_single_bit {N : Nat} {a b : bitset N} {k t : Nat} (ht : t < 32)
    (ha : a.val.testBit (32 * k + t) = false) (hb : b.val.testBit (32 * k + t) = true)
    (hrest : ∀ s, s < 32 → t < s → a.val.testBit (32 * k + s) = b.val.testBit (32 * k + s)) :
    intAt a k < intAt b k := by
  apply Nat.lt_of_testBit t
  · rw [intAt_testBit, ha]; simp
  · rw [intAt_testBit, hb]; simp [ht]
  · intro s hs
    rw [intAt_testBit, intAt_testBit]
    by_cases h32 : s < 32
    · rw [hrest s h32 hs]
    · simp [h32]

theorem word_lt_of_subset {x y : Nat}
    (hsub : ∀ t, x.testBit t = true → y.testBit t = true) (hne : x ≠ y) : x < y := by
  have hand : x &&& y = x := by
    apply Nat.eq_of_testBit_eq
    intro t
    rw [Nat.testBit_and]
    cases hx : x.testBit t
    · rfl
    · rw [hsub t hx]; rfl
  have hle : x ≤ y := by
    rw [← hand]
    exact Nat.and_le_right
  omega

/-! ## The claims -/

namespace BitsetUtil

/-- C1 (counterexample): `IsLessThan` is not the reference ordering of the
specification.  With `a = {31}` and `b = {}` the only word that differs is
word 0, which is `INT_MIN` in `a` and `0` in `b`: the code answers true (signed
comparison), the reference false (unsigned comparison).  With `a = {0}` and
`b = {32}` the code meets word 0 first (`1` against `0`) and answers false,
while the reference meets word 1 first (`0` against `1`) and answers true. -/
theorem IsLessThan_ne_spec :
    IsLessThan (⟨2 ^ 31, by decide⟩ : bitset_t .otherwise) ⟨0, by decide⟩ = true ∧
    IsLessThan_spec (⟨2 ^ 31, by decide⟩ : bitset_t .otherwise) ⟨0, by decide⟩ = false ∧
    IsLessThan (⟨2 ^ 0, by decide⟩ : bitset_t .otherwise) ⟨2 ^ 32, by decide⟩ = false ∧
    IsLessThan_spec (⟨2 ^ 0, by decide⟩ : bitset_t .otherwise) ⟨2 ^ 32, by decide⟩ = true := by
  decide

/-- C1 (amended): `IsLessThan(a, b)` is the ordering that scans the `int`
words in memory order, word 0 (bits 0..31) first, and at the first word where
`a` and `b` differ answers whether that word of `a` is less than that word of
`b`, both read as signed `int`s; it is false when all words are equal. -/
theorem IsLessThan_first_difference (c : Build) (a b : bitset_t c) :
    (IsLessThan a b = true ↔
      ∃ k, k < num (BITSETSIZE c) ∧ (∀ j, j < k → intAt a j = intAt b j) ∧
        intAt a k ≠ intAt b k ∧ asInt (intAt a k) < asInt (intAt b k)) ∧
    ((∀ k, k < num (BITSETSIZE c) → intAt a k = intAt b k) → IsLessThan a b = false) := by
  have key := IsLessThan_loop_iff a b (num (BITSETSIZE c)) 0
  constructor
  · unfold IsLessThan
    rw [key]
    constructor
    · rintro ⟨k, -, h2, h3, h4⟩
      refine ⟨k, by omega, fun j hj => h3 j (Nat.zero_le _) hj, ?_, h4⟩
      intro e
      rw [e] at h4
      exact lt_irrefl _ h4
    · rintro ⟨k, h1, h2, -, h4⟩
      exact ⟨k, Nat.zero_le _, by omega, fun j _ hj => h2 j hj, h4⟩
  · intro h
    have e : a = b := eq_of_intAt_eq h
    rw [e]
    exact IsLessThan_loop_self b _ 0

/-- C2: `IsLessThan` is a strict order: irreflexive, asymmetric and
transitive. -/
theorem IsLessThan_strict_order (c : Build) (a b d : bitset_t c) :
    IsLessThan a a = false ∧
    (IsLessThan a b = true → IsLessThan b a = false) ∧
    (IsLessThan a b = true → IsLessThan b d = true → IsLessThan a d = true) :=
  ⟨IsLessThan_loop_self a _ 0, IsLessThan_loop_asymm a b _ 0, IsLessThan_loop_trans a b d _ 0⟩

/-- C2 at capacity 128 with `a = {0}`, `b = {1}` and `d = {2}`: both premises
of transitivity hold there. -/
theorem IsLessThan_strict_order_witness :
    IsLessThan (⟨2 ^ 0, by decide⟩ : bitset_t .otherwise) ⟨2 ^ 1, by decide⟩ = true ∧
    IsLessThan (⟨2 ^ 1, by decide⟩ : bitset_t .otherwise) ⟨2 ^ 2, by decide⟩ = true ∧
    IsLessThan (⟨2 ^ 0, by decide⟩ : bitset_t .otherwise) ⟨2 ^ 2, by decide⟩ = true :=
  ⟨by decide, by decide,
    (IsLessThan_strict_order .otherwise ⟨2 ^ 0, by decide⟩ ⟨2 ^ 1, by decide⟩
      ⟨2 ^ 2, by decide⟩).2.2 (by decide) (by decide)⟩

/-- C3: `IsLessThan` is total and consistent with equality: neither of `a`,
`b` is less than the other exactly when `a == b`, so exactly one of `a < b`,
`b < a`, `a == b` holds. -/
theorem IsLessThan_total (c : Build) (a b : bitset_t c) :
    ((IsLessThan a b = false ∧ IsLessThan b a = false) ↔ a = b) ∧
    ((IsLessThan a b = true ∧ IsLessThan b a = false ∧ a ≠ b) ∨
     (IsLessThan a b = false ∧ IsLessThan b a = true ∧ a ≠ b) ∨
     (IsLessThan a b = false ∧ IsLessThan b a = false ∧ a = b)) := by
  have hiff : (IsLessThan a b = false ∧ IsLessThan b a = false) ↔ a = b := by
    constructor
    · rintro ⟨h1, h2⟩
      apply eq_of_intAt_eq
      intro k hk
      exact IsLessThan_loop_total a b _ 0 h1 h2 k (Nat.zero_le _) (by omega)
    · intro e
      rw [e]
      exact ⟨IsLessThan_loop_self b _ 0, IsLessThan_loop_self b _ 0⟩
  refine ⟨hiff, ?_⟩
  cases hab : IsLessThan a b
  · cases hba : IsLessThan b a
    · exact Or.inr (Or.inr ⟨rfl, rfl, hiff.mp ⟨hab, hba⟩⟩)
    · refine Or.inr (Or.inl ⟨rfl, rfl, ?_⟩)
      intro e
      rw [(hiff.mpr e).2] at hba
      exact absurd hba (by decide)
  · have hba := IsLessThan_loop_asymm a b _ 0 hab
    refine Or.inl ⟨rfl, hba, ?_⟩
    intro e
    rw [(hiff.mpr e).1] at hab
    exact absurd hab (by decide)

/-- C4: the word-wise `IsSubsetOf` returns the same boolean as the
definitional form `(a & b) == a`. -/
theorem IsSubsetOf_eq_fallback (c : Build) (a b : bitset_t c) :
    IsSubsetOf a b = IsSubsetOf_fallback a b := by
  rw [Bool.eq_iff_iff, IsSubsetOf_iff, IsSubsetOf_fallback_iff]

/-- C5: `IsSubsetOf(a, b)` is true exactly when every index `i` below the
capacity with `a.test(i)` has `b.test(i)`; `{1,2}` is a subset of `{1,2,3}`
and `{2,3,4}` is not. -/
theorem IsSubsetOf_iff_test :
    (∀ (c : Build) (a b : bitset_t c),
      IsSubsetOf a b = true ↔
        ∀ i, i < BITSETSIZE c → a.test i = .ok true → b.test i = .ok true) ∧
    IsSubsetOf (⟨2 ^ 1 + 2 ^ 2, by decide⟩ : bitset_t .otherwise)
      ⟨2 ^ 1 + 2 ^ 2 + 2 ^ 3, by decide⟩ = true ∧
    IsSubsetOf (⟨2 ^ 2 + 2 ^ 3 + 2 ^ 4, by decide⟩ : bitset_t .otherwise)
      ⟨2 ^ 1 + 2 ^ 2 + 2 ^ 3, by decide⟩ = false := by
  refine ⟨?_, by decide, by decide⟩
  intro c a b
  rw [IsSubsetOf_iff]
  constructor
  · intro h i hi hai
    rw [test_eq_ok_true_iff] at hai ⊢
    exact ⟨hi, h i hi hai.2⟩
  · intro h j hj haj
    exact ((test_eq_ok_true_iff b j).mp (h j hj ((test_eq_ok_true_iff a j).mpr ⟨hj, haj⟩))).2

end BitsetUtil

namespace BitsetUtil

theorem BitsetToVector_ignores_old {N : Nat} (b : bitset N) (old : List Int) :
    BitsetToVector b old = BitsetToVector b [] := rfl

/-- C6: whatever `indices` held before, `BitsetToVector(b, indices)` returns
with `indices` holding exactly the positions `i` below the capacity with
`b.test(i)`, in strictly ascending order (so each once); for capacity 128 and
`b = {0, 5, 127}` the result is `[0, 5, 127]`. -/
theorem BitsetToVector_contents :
    (∀ (c : Build) (b : bitset_t c) (old : List Int),
      ∃ v, BitsetToVector b old = .ok v ∧ List.Sorted (· < ·) v ∧
        ∀ x : Int, x ∈ v ↔ ∃ i : Nat, i < BITSETSIZE c ∧ b.test i = .ok true ∧ x = (i : Int)) ∧
    (∀ old : List Int,
      BitsetToVector (⟨2 ^ 0 + 2 ^ 5 + 2 ^ 127, by decide⟩ : bitset_t .otherwise) old =
        .ok [0, 5, 127]) := by
  constructor
  · intro c b old
    have hN := BITSETSIZE_le_size_t c
    refine ⟨_, BitsetToVector_eq b hN old, setBits_sorted _ _, ?_⟩
    intro x
    rw [mem_setBits]
    constructor
    · rintro ⟨i, h1, h2, h3⟩
      exact ⟨i, h1, (test_eq_ok_true_iff b i).mpr ⟨h1, h2⟩, h3⟩
    · rintro ⟨i, h1, h2, h3⟩
      exact ⟨i, h1, ((test_eq_ok_true_iff b i).mp h2).2, h3⟩
  · intro old
    rw [BitsetToVector_ignores_old]
    decide!

/-- C7: round trip through the index collection: the indices produced by
`BitsetToVector(b)` are strictly ascending, hence are the iteration order of
the set they form, and `SetToBitset` of them is `b`. -/
theorem SetToBitset_BitsetToVector (c : Build) (b : bitset_t c) (old : List Int) :
    ∃ v, BitsetToVector b old = .ok v ∧ List.Sorted (· < ·) v ∧ SetToBitset v = .ok b := by
  have hN := BITSETSIZE_le_size_t c
  refine ⟨_, BitsetToVector_eq b hN old, setBits_sorted _ _, ?_⟩
  have hrange : ∀ x ∈ ((((List.range (BITSETSIZE c)).filter
      (fun j => b.val.testBit j)).map Nat.cast) : List Int), 0 ≤ x ∧ x < (BITSETSIZE c : Int) := by
    intro x hx
    obtain ⟨i, h1, -, h3⟩ := (mem_setBits _ _ x).mp hx
    rw [h3]
    exact ⟨Int.ofNat_nonneg i, Int.ofNat_lt.mpr h1⟩
  obtain ⟨r, hr, hbits⟩ := SetToBitset_spec (BITSETSIZE_le_int c) _ hrange
  rw [hr]
  congr 1
  apply bitset_ext_testBit
  intro j hj
  rw [hbits j]
  by_cases hb : b.val.testBit j = true
  · rw [hb]
    exact decide_eq_true ((mem_setBits _ _ _).mpr ⟨j, hj, hb, rfl⟩)
  · rw [Bool.not_eq_true] at hb
    rw [hb]
    apply decide_eq_false
    intro hx
    obtain ⟨i, -, h2, h3⟩ := (mem_setBits _ _ _).mp hx
    have : j = i := Int.ofNat_inj.mp h3
    rw [this, h2] at hb
    exact absurd hb (by decide)

/-- C8: for indices all lying in `0..BITSETSIZE-1`, `SetToBitset(indices)`
returns the bitset whose bit `i` is set exactly when `i` is among the
indices; any other collection with the same members, such as one that repeats
an index, gives the same bitset. -/
theorem SetToBitset_bits (c : Build) (indices : List Int)
    (h : ∀ x ∈ indices, 0 ≤ x ∧ x < (BITSETSIZE c : Int)) :
    ∃ r : bitset_t c, SetToBitset indices = .ok r ∧
      (∀ i : Nat, i < BITSETSIZE c → r.test i = .ok (decide ((i : Int) ∈ indices))) ∧
      (∀ other : List Int, (∀ x, x ∈ other ↔ x ∈ indices) → SetToBitset other = .ok r) := by
  have hN := BITSETSIZE_le_size_t c
  obtain ⟨r, hr, hbits⟩ := SetToBitset_spec (BITSETSIZE_le_int c) indices h
  refine ⟨r, hr, ?_, ?_⟩
  · intro i hi
    unfold bitset.test
    rw [if_pos hi, hbits i]
  · intro other hmem
    obtain ⟨r2, hr2, hbits2⟩ :=
      SetToBitset_spec (BITSETSIZE_le_int c) other (fun x hx => h x ((hmem x).mp hx))
    rw [hr2]
    congr 1
    apply bitset_ext_testBit
    intro j _
    rw [hbits j, hbits2 j]
    exact decide_eq_decide.mpr (hmem _)

/-- C8 at capacity 128 and the indices 1, 2, 3. -/
theorem SetToBitset_bits_witness :
    (∀ x ∈ ([1, 2, 3] : List Int), 0 ≤ x ∧ x < (BITSETSIZE .otherwise : Int)) ∧
    ∃ r : bitset_t .otherwise, SetToBitset [1, 2, 3] = .ok r ∧
      (∀ i : Nat, i < BITSETSIZE .otherwise →
        r.test i = .ok (decide ((i : Int) ∈ ([1, 2, 3] : List Int)))) ∧
      (∀ other : List Int, (∀ x, x ∈ other ↔ x ∈ ([1, 2, 3] : List Int)) →
        SetToBitset other = .ok r) :=
  ⟨by decide, SetToBitset_bits .otherwise [1, 2, 3] (by decide)⟩

/-- C9: the sequence produced by `BitsetToVector(b)` has `b.count()`
elements, so the assertion that ends `BitsetToVector` never fails. -/
theorem BitsetToVector_length_eq_count (c : Build) (b : bitset_t c) (old : List Int) :
    (∃ v, BitsetToVector b old = .ok v ∧ v.length = b.count) ∧
    BitsetToVector b old ≠ .error .assertion := by
  have hN := BITSETSIZE_le_size_t c
  have h := BitsetToVector_eq b hN old
  constructor
  · refine ⟨_, h, ?_⟩
    rw [List.length_map]
    exact (bitset_popcount_eq _ _).symm
  · rw [h]
    intro e
    cases e

/-- C10: `SubtractIfLeavesAny(a, b)` is a conditional update: when
`Subtract(a, b)` is non-empty it returns true and `a` becomes
`Subtract(a, b)`; when `Subtract(a, b)` is empty it returns false and `a` keeps
its value; `b` is never changed.  With `a = b = {2,3}` it returns false and
`a` stays `{2,3}`. -/
theorem SubtractIfLeavesAny_conditional :
    (∀ (c : Build) (a b : bitset_t c),
      (Subtract a b ≠ EMPTY_BITSET c → SubtractIfLeavesAny a b = (true, Subtract a b, b)) ∧
      (Subtract a b = EMPTY_BITSET c → SubtractIfLeavesAny a b = (false, a, b))) ∧
    SubtractIfLeavesAny (⟨2 ^ 2 + 2 ^ 3, by decide⟩ : bitset_t .otherwise)
        ⟨2 ^ 2 + 2 ^ 3, by decide⟩ =
      (false, ⟨2 ^ 2 + 2 ^ 3, by decide⟩, ⟨2 ^ 2 + 2 ^ 3, by decide⟩) := by
  refine ⟨?_, by decide⟩
  intro c a b
  have hany : (Subtract a b).any = true ↔ Subtract a b ≠ EMPTY_BITSET c := by
    unfold bitset.any EMPTY_BITSET bitset.zero
    rw [bne_iff_ne]
    constructor
    · intro h e
      apply h
      rw [e]
    · intro h e
      apply h
      apply bitset_ext_testBit
      intro j _
      rw [e]
  constructor
  · intro h
    unfold SubtractIfLeavesAny
    simp only [hany.mpr h, if_true]
  · intro h
    have : ¬ (Subtract a b).any = true := fun e => hany.mp e h
    unfold SubtractIfLeavesAny
    rw [Bool.not_eq_true] at this
    simp only [this, Bool.false_eq_true, if_false]

end BitsetUtil

namespace BitsetUtil

/-- C11: for every index `i` below the capacity,
`Subtract(a, b).test(i) == (a.test(i) && !b.test(i))`; the binary `operator-`
returns the same value; with `a = {1,2,3}` and `b = {2,3,4}` the result is
`{1}`. -/
theorem Subtract_test :
    (∀ (c : Build) (a b : bitset_t c) (i : Nat), i < BITSETSIZE c →
      (Subtract a b).test i = .ok (a.val.testBit i && !b.val.testBit i) ∧
      a.test i = .ok (a.val.testBit i) ∧ b.test i = .ok (b.val.testBit i)) ∧
    (∀ (c : Build) (a b : bitset_t c), operator_minus a b = Subtract a b) ∧
    Subtract (⟨2 ^ 1 + 2 ^ 2 + 2 ^ 3, by decide⟩ : bitset_t .otherwise)
      ⟨2 ^ 2 + 2 ^ 3 + 2 ^ 4, by decide⟩ = ⟨2 ^ 1, by decide⟩ := by
  refine ⟨?_, fun _ _ _ => rfl, by decide⟩
  intro c a b i hi
  unfold bitset.test
  rw [if_pos hi, if_pos hi, if_pos hi, Subtract_testBit a b i hi]
  exact ⟨rfl, rfl, rfl⟩

/-- C16 (counterexample): at capacity 128 the one-element collection
`{2^32 + 3}` holds an index that is not below the capacity, yet `SetToBitset`
returns a bitset: `static_cast<int>` narrows the index to `3` and bit 3 is
set. -/
theorem SetToBitset_wraps :
    (BITSETSIZE .otherwise : Int) ≤ 2 ^ 32 + 3 ∧
    SetToBitset [2 ^ 32 + 3] = .ok (⟨2 ^ 3, by decide⟩ : bitset_t .otherwise) := by
  decide

/-- C16 (amended): `SetToBitset` narrows every index with `static_cast<int>`
and fails fast on the narrowed value: it returns a bitset exactly when every
narrowed index lies in `0..BITSETSIZE-1`, the bits set being those of the
narrowed indices, and it ends with `std::out_of_range`, yielding no bitset,
when some narrowed index is negative or at least `BITSETSIZE`.  For indices
within the range of `int` the narrowing changes nothing: the call returns a
bitset exactly when every index lies in `0..BITSETSIZE-1` and fails when some
index is negative or at least `BITSETSIZE`. -/
theorem SetToBitset_fails_fast (c : Build) (indices : List Int) :
    ((∃ r : bitset_t c, SetToBitset indices = .ok r) ↔
      ∀ x ∈ indices, 0 ≤ static_cast_int x ∧ static_cast_int x < (BITSETSIZE c : Int)) ∧
    (∀ r : bitset_t c, SetToBitset indices = .ok r → ∀ i, i < BITSETSIZE c →
      r.test i = .ok (decide ((i : Int) ∈ indices.map static_cast_int))) ∧
    ((∃ x ∈ indices, static_cast_int x < 0 ∨ (BITSETSIZE c : Int) ≤ static_cast_int x) →
      SetToBitset indices = (.error .out_of_range : Except Fault (bitset_t c))) ∧
    ((∀ x ∈ indices, -2 ^ 31 ≤ x ∧ x < 2 ^ 31) →
      ((∃ r : bitset_t c, SetToBitset indices = .ok r) ↔
        ∀ x ∈ indices, 0 ≤ x ∧ x < (BITSETSIZE c : Int)) ∧
      ((∃ x ∈ indices, x < 0 ∨ (BITSETSIZE c : Int) ≤ x) →
        SetToBitset indices = (.error .out_of_range : Except Fault (bitset_t c)))) := by
  have hN := BITSETSIZE_le_int c
  have herr : (∃ x ∈ indices, static_cast_int x < 0 ∨
      (BITSETSIZE c : Int) ≤ static_cast_int x) →
      SetToBitset indices = (.error .out_of_range : Except Fault (bitset_t c)) :=
    fun h => SetToBitset_loop_error hN indices _ h
  have hiff : (∃ r : bitset_t c, SetToBitset indices = .ok r) ↔
      ∀ x ∈ indices, 0 ≤ static_cast_int x ∧ static_cast_int x < (BITSETSIZE c : Int) := by
    constructor
    · rintro ⟨r, hr⟩ x hx
      by_contra hbad
      have := herr ⟨x, hx, by omega⟩
      rw [this] at hr
      cases hr
    · intro h
      obtain ⟨r, hr, -⟩ := SetToBitset_cast_spec (BITSETSIZE_le_size_t c) indices h
      exact ⟨r, hr⟩
  refine ⟨hiff, ?_, herr, ?_⟩
  · intro r hr i hi
    obtain ⟨r2, hr2, hbits⟩ :=
      SetToBitset_cast_spec (BITSETSIZE_le_size_t c) indices (hiff.mp ⟨r, hr⟩)
    rw [hr] at hr2
    cases hr2
    unfold bitset.test
    rw [if_pos hi, hbits i]
  · intro hint
    have hid : ∀ x ∈ indices, static_cast_int x = x :=
      fun x hx => static_cast_int_of_range (hint x hx).1 (hint x hx).2
    constructor
    · rw [hiff]
      constructor
      · intro h x hx
        have := h x hx
        rw [hid x hx] at this
        exact this
      · intro h x hx
        rw [hid x hx]
        exact h x hx
    · rintro ⟨x, hx, hbad⟩
      apply herr
      refine ⟨x, hx, ?_⟩
      rw [hid x hx]
      exact hbad

/-- C16 at capacity 128 and the `int` indices 3 and 128: the second is out of
range and the call yields no bitset. -/
theorem SetToBitset_fails_fast_witness :
    (∀ x ∈ ([3, 128] : List Int), -2 ^ 31 ≤ x ∧ x < 2 ^ 31) ∧
    SetToBitset [3, 128] = (.error .out_of_range : Except Fault (bitset_t .otherwise)) :=
  ⟨by decide,
    ((SetToBitset_fails_fast .otherwise [3, 128]).2.2.2 (by decide)).2
      ⟨128, by decide, by decide⟩⟩

/-- C19: `IsSubsetOf` is a partial order on bitsets (reflexive, antisymmetric,
transitive) and the empty bitset is a subset of every bitset. -/
theorem IsSubsetOf_partial_order (c : Build) (a b d : bitset_t c) :
    IsSubsetOf a a = true ∧
    (IsSubsetOf a b = true → IsSubsetOf b a = true → a = b) ∧
    (IsSubsetOf a b = true → IsSubsetOf b d = true → IsSubsetOf a d = true) ∧
    IsSubsetOf (EMPTY_BITSET c) a = true := by
  refine ⟨?_, ?_, ?_, ?_⟩
  · rw [IsSubsetOf_iff]
    intro j _ h
    exact h
  · intro h1 h2
    rw [IsSubsetOf_iff] at h1 h2
    apply bitset_ext_testBit
    intro j hj
    cases ha : a.val.testBit j
    · cases hb : b.val.testBit j
      · rfl
      · rw [h2 j hj hb] at ha
        exact absurd ha (by decide)
    · exact (h1 j hj ha).symm
  · intro h1 h2
    rw [IsSubsetOf_iff] at h1 h2 ⊢
    intro j hj h
    exact h2 j hj (h1 j hj h)
  · rw [IsSubsetOf_iff]
    intro j _ h
    simp [EMPTY_BITSET, bitset.zero] at h

/-- C19 at capacity 128 with `a = {1}`, `b = {1,2}` and `d = {1,2,3}`: both
premises of transitivity hold there. -/
theorem IsSubsetOf_partial_order_witness :
    IsSubsetOf (⟨2 ^ 1, by decide⟩ : bitset_t .otherwise) ⟨2 ^ 1 + 2 ^ 2, by decide⟩ = true ∧
    IsSubsetOf (⟨2 ^ 1 + 2 ^ 2, by decide⟩ : bitset_t .otherwise)
      ⟨2 ^ 1 + 2 ^ 2 + 2 ^ 3, by decide⟩ = true ∧
    IsSubsetOf (⟨2 ^ 1, by decide⟩ : bitset_t .otherwise)
      ⟨2 ^ 1 + 2 ^ 2 + 2 ^ 3, by decide⟩ = true :=
  ⟨by decide, by decide,
    (IsSubsetOf_partial_order .otherwise ⟨2 ^ 1, by decide⟩ ⟨2 ^ 1 + 2 ^ 2, by decide⟩
      ⟨2 ^ 1 + 2 ^ 2 + 2 ^ 3, by decide⟩).2.2.1 (by decide) (by decide)⟩

/-- C20: converse round trip: for a set `s` of indices within
`0..BITSETSIZE-1`, given by its elements in iteration (ascending) order,
`SetToBitset(s)` returns a bitset whose `BitsetToVector` is that same ascending
list, so its length is the size of `s`. -/
theorem BitsetToVector_SetToBitset (c : Build) (s : List Int)
    (hs : List.Sorted (· < ·) s)
    (h : ∀ x ∈ s, 0 ≤ x ∧ x < (BITSETSIZE c : Int)) (old : List Int) :
    ∃ r : bitset_t c, SetToBitset s = .ok r ∧
      ∃ v, BitsetToVector r old = .ok v ∧ v = s ∧ v.length = s.length := by
  have hN := BITSETSIZE_le_size_t c
  obtain ⟨r, hr, hbits⟩ := SetToBitset_spec (BITSETSIZE_le_int c) s h
  refine ⟨r, hr, _, BitsetToVector_eq r hN old, ?_⟩
  have hv : ((((List.range (BITSETSIZE c)).filter (fun j => r.val.testBit j)).map
      Nat.cast) : List Int) = s := by
    apply sorted_lt_ext (setBits_sorted _ _) hs
    intro x
    rw [mem_setBits]
    constructor
    · rintro ⟨i, -, h2, h3⟩
      rw [hbits i] at h2
      rw [h3]
      exact of_decide_eq_true h2
    · intro hx
      obtain ⟨h0, h1⟩ := h x hx
      refine ⟨x.toNat, by omega, ?_, by omega⟩
      rw [hbits]
      apply decide_eq_true
      have : ((x.toNat : Nat) : Int) = x := by omega
      rw [this]
      exact hx
  exact ⟨hv, by rw [hv]⟩

/-- C20 at capacity 128 and the set `{0, 5, 127}`. -/
theorem BitsetToVector_SetToBitset_witness :
    List.Sorted (· < ·) ([0, 5, 127] : List Int) ∧
    ∃ r : bitset_t .otherwise, SetToBitset [0, 5, 127] = .ok r ∧
      ∃ v, BitsetToVector r [] = .ok v ∧ v = [0, 5, 127] ∧
        v.length = ([0, 5, 127] : List Int).length :=
  ⟨by decide, BitsetToVector_SetToBitset .otherwise [0, 5, 127] (by decide) (by decide) []⟩

end BitsetUtil

namespace BitsetUtil

/-- C12: byte round trip: for `numbits` at most the capacity and a bitset `b`
whose set bits all have index below `numbits`,
`BytesToBitset(BitsetToBytes(b, numbits), numbits) == b`. -/
theorem BytesToBitset_BitsetToBytes (c : Build) (b : bitset_t c) (numbits : Nat)
    (h : numbits ≤ BITSETSIZE c) (hb : ∀ i, b.test i = .ok true → i < numbits) :
    BytesToBitset (BitsetToBytes b numbits) numbits = .ok b :=
  BytesToBitset_BitsetToBytes_gen b numbits numbits (le_refl _) h (testBit_lt_of_test hb)

/-- C12 at capacity 128 with `b = {0, 5, 9}` and `numbits = 10`. -/
theorem BytesToBitset_BitsetToBytes_witness :
    BytesToBitset (BitsetToBytes (⟨2 ^ 0 + 2 ^ 5 + 2 ^ 9, by decide⟩ : bitset_t .otherwise) 10)
      10 = .ok (⟨2 ^ 0 + 2 ^ 5 + 2 ^ 9, by decide⟩ : bitset_t .otherwise) :=
  BytesToBitset_BitsetToBytes .otherwise ⟨2 ^ 0 + 2 ^ 5 + 2 ^ 9, by decide⟩ 10 (by decide)
    (by
      intro i hi
      have h2 := ((test_eq_ok_true_iff _ i).mp hi).2
      by_contra hge
      have hlt : (2 ^ 0 + 2 ^ 5 + 2 ^ 9 : Nat) < 2 ^ i :=
        Nat.lt_of_lt_of_le (by decide : (2 ^ 0 + 2 ^ 5 + 2 ^ 9 : Nat) < 2 ^ 10)
          (Nat.pow_le_pow_right (by decide) (Nat.le_of_not_lt hge))
      rw [Nat.testBit_lt_two_pow hlt] at h2
      exact absurd h2 (by decide))

/-- C13: hex round trip: for `numbits` at most the capacity and a bitset `b`
whose set bits all have index below `numbits`,
`HexToBitset(BitsetToHex(b, numbits))` succeeds and equals `b`; for capacity
128, `b = {0, 5, 127}` and `numbits = 128` the result has exactly the bits 0, 5
and 127 set. -/
theorem HexToBitset_BitsetToHex :
    (∀ (c : Build) (b : bitset_t c) (numbits : Nat), numbits ≤ BITSETSIZE c →
      (∀ i, b.test i = .ok true → i < numbits) →
      HexToBitset (BitsetToHex b numbits) = .ok b) ∧
    (∃ r : bitset_t .otherwise,
      HexToBitset
        (BitsetToHex (⟨2 ^ 0 + 2 ^ 5 + 2 ^ 127, by decide⟩ : bitset_t .otherwise) 128) = .ok r ∧
      ∀ i, i < 128 → r.test i = .ok (decide (i = 0 ∨ i = 5 ∨ i = 127))) := by
  constructor
  · intro c b numbits h hb
    have h8 : BITSETSIZE c % 8 = 0 := by cases c <;> decide
    exact HexToBitset_BitsetToHex_gen b numbits h8 h (testBit_lt_of_test hb)
  · refine ⟨⟨2 ^ 0 + 2 ^ 5 + 2 ^ 127, by decide⟩, by decide!, ?_⟩
    decide!

/-- C14: byte layout of `BitsetToBytes`: for `numbits` at most the capacity
the call writes `ceil(numbits/8)` bytes, bit `j` of byte `k` equals
`b.test(8k + j)` whenever `8k + j < numbits`, and is 0 at the positions of the
last byte at or beyond `numbits`. -/
theorem BitsetToBytes_layout (c : Build) (b : bitset_t c) (numbits : Nat)
    (h : numbits ≤ BITSETSIZE c) :
    8 * (BitsetToBytes b numbits).length < numbits + 8 ∧
    numbits ≤ 8 * (BitsetToBytes b numbits).length ∧
    ∀ k, k < (BitsetToBytes b numbits).length →
      (BitsetToBytes b numbits).getD k 0 < 256 ∧
      ∀ j, j < 8 →
        (8 * k + j < numbits →
          b.test (8 * k + j) = .ok (((BitsetToBytes b numbits).getD k 0).testBit j)) ∧
        (numbits ≤ 8 * k + j → ((BitsetToBytes b numbits).getD k 0).testBit j = false) := by
  rw [BitsetToBytes_length]
  refine ⟨by omega, by omega, ?_⟩
  intro k hk
  rw [BitsetToBytes_getD, if_pos hk]
  refine ⟨Nat.mod_lt _ (by decide), ?_⟩
  intro j hj
  rw [byte_testBit]
  constructor
  · intro hlt
    unfold bitset.test
    rw [if_pos (by omega)]
    simp [hj, hlt]
  · intro hge
    have : ¬ 8 * k + j < numbits := by omega
    simp [this]

/-- C14 at capacity 128 with `b = {0, 5, 9, 11}` and `numbits = 10`: two bytes
are written, `0x21` and `0x02`; bit 11 lies beyond `numbits` and is not
written. -/
theorem BitsetToBytes_layout_witness :
    BitsetToBytes (⟨2 ^ 0 + 2 ^ 5 + 2 ^ 9 + 2 ^ 11, by decide⟩ : bitset_t .otherwise) 10 =
      [33, 2] ∧
    8 * (BitsetToBytes
      (⟨2 ^ 0 + 2 ^ 5 + 2 ^ 9 + 2 ^ 11, by decide⟩ : bitset_t .otherwise) 10).length < 10 + 8 :=
  ⟨by decide,
    (BitsetToBytes_layout .otherwise ⟨2 ^ 0 + 2 ^ 5 + 2 ^ 9 + 2 ^ 11, by decide⟩ 10
      (by decide)).1⟩

/-- C15: `HexToBitset` ends with the reportable error on every malformed
string (odd length, a character that is not a hexadecimal digit, or more than
`BITSETSIZE` decoded bits at four per digit) and returns a bitset for every
well-formed string. -/
theorem HexToBitset_malformed (c : Build) (str : List Char) :
    ((str.length % 2 = 1 ∨ (∃ ch ∈ str, hexVal ch = none) ∨ BITSETSIZE c < 4 * str.length) →
      HexToBitset str = (.error .malformed_input : Except Fault (bitset_t c))) ∧
    ((str.length % 2 = 0 ∧ (∀ ch ∈ str, hexVal ch ≠ none) ∧ 4 * str.length ≤ BITSETSIZE c) →
      ∃ b : bitset_t c, HexToBitset str = .ok b) := by
  constructor
  · intro hbad
    unfold HexToBitset
    cases hbs : hexToBytes str with
    | none => rfl
    | some bs =>
      obtain ⟨hlen, hall⟩ := hexToBytes_eq_some str bs hbs
      rcases hbad with h | ⟨ch, hch, hnone⟩ | h
      · omega
      · exact absurd hnone (hall ch hch)
      · simp only
        rw [if_pos (by omega)]
  · rintro ⟨hlen, hall, hcap⟩
    obtain ⟨bs, hbs⟩ := hexToBytes_of_wellformed str hlen hall
    have hl := (hexToBytes_eq_some str bs hbs).1
    unfold HexToBitset
    rw [hbs]
    simp only
    rw [if_neg (by omega)]
    obtain ⟨out, hout, -⟩ :=
      BytesToBitset_loop_spec bs (8 * bs.length) 0 (bitset.zero (BITSETSIZE c)) (by omega)
    exact ⟨out, hout⟩

/-- C15 at capacity 128: the strings `2fA` (odd length) and `2G` (a character
that is no hexadecimal digit) are refused, and `2fA0` is decoded. -/
theorem HexToBitset_malformed_witness :
    HexToBitset ['2', 'f', 'A'] = (.error .malformed_input : Except Fault (bitset_t .otherwise)) ∧
    HexToBitset ['2', 'G'] = (.error .malformed_input : Except Fault (bitset_t .otherwise)) ∧
    ∃ b : bitset_t .otherwise, HexToBitset ['2', 'f', 'A', '0'] = .ok b :=
  ⟨(HexToBitset_malformed .otherwise ['2', 'f', 'A']).1 (Or.inl (by decide)),
    (HexToBitset_malformed .otherwise ['2', 'G']).1
      (Or.inr (Or.inl ⟨'G', by decide, by decide⟩)),
    (HexToBitset_malformed .otherwise ['2', 'f', 'A', '0']).2 ⟨by decide, by decide, by decide⟩⟩

end BitsetUtil

namespace BitsetUtil

/-- C17 (counterexample): with `a = {0}` and `b = {1}` the two branches of
`IsLessThan` disagree: word 0 is `1` in `a` and `2` in `b`, so the optimised
branch answers true, while the lowest index where they differ is 0, where
bit 0 of `a` is set, so the `#else` branch answers false. -/
theorem IsLessThan_ne_fallback :
    IsLessThan (⟨2 ^ 0, by decide⟩ : bitset_t .otherwise) ⟨2 ^ 1, by decide⟩ = true ∧
    IsLessThan_fallback (⟨2 ^ 0, by decide⟩ : bitset_t .otherwise) ⟨2 ^ 1, by decide⟩ =
      false := by
  decide!

/-- C17 (amended): the `#else` branch of `IsLessThan` answers true exactly
when bit `i` of `a` is clear at the lowest index `i` where `a` and `b` differ;
the two branches answer false in both directions for the same pairs (those
with `a == b`); and they return the same boolean whenever `a` and `b` agree on
every bit of the words up to and including the word of index `i / 32`, except
at the single index `i`, which is not bit 31 of its word. -/
theorem IsLessThan_fallback_agreement (c : Build) (a b : bitset_t c) :
    (IsLessThan_fallback a b = true ↔
      ∃ i, i < BITSETSIZE c ∧ (∀ j, j < i → a.get j = b.get j) ∧
        a.get i = false ∧ b.get i = true) ∧
    ((IsLessThan a b = false ∧ IsLessThan b a = false) ↔
      (IsLessThan_fallback a b = false ∧ IsLessThan_fallback b a = false)) ∧
    (∀ i, i < BITSETSIZE c → i % 32 ≠ 31 → a.get i ≠ b.get i →
      (∀ j, j ≠ i → j / 32 ≤ i / 32 → a.get j = b.get j) →
      IsLessThan a b = IsLessThan_fallback a b) := by
  have hN := BITSETSIZE_le_size_t c
  refine ⟨IsLessThan_fallback_iff a b hN, ?_, ?_⟩
  · rw [IsLessThan_fallback_both_false_iff a b hN]
    constructor
    · rintro ⟨h1, h2⟩
      apply eq_of_intAt_eq
      intro k hk
      exact IsLessThan_loop_total a b _ 0 h1 h2 k (Nat.zero_le _) (by omega)
    · intro e
      rw [e]
      exact ⟨IsLessThan_loop_self b _ 0, IsLessThan_loop_self b _ 0⟩
  · intro i hi h31 hd hrest
    have hik : 32 * (i / 32) + i % 32 = i := Nat.div_add_mod i 32
    have ht : i % 32 < 32 := Nat.mod_lt _ (by decide)
    have hk : i / 32 < num (BITSETSIZE c) := by
      have := num_covers (BITSETSIZE c)
      omega
    have hbit : ∀ s, s < 32 → s ≠ i % 32 →
        a.val.testBit (32 * (i / 32) + s) = b.val.testBit (32 * (i / 32) + s) := by
      intro s hs hne
      exact hrest _ (by omega) (by omega)
    have hwords : ∀ j, j < i / 32 → intAt a j = intAt b j := by
      intro j hj
      apply intAt_eq_of_testBit_eq
      intro s hs
      exact hrest _ (by omega) (by omega)
    have hwne : intAt a (i / 32) ≠ intAt b (i / 32) := by
      intro e
      have := testBit_eq_of_intAt_eq e (i % 32) ht
      rw [hik] at this
      exact hd this
    have hsign : (intAt a (i / 32)).testBit 31 = (intAt b (i / 32)).testBit 31 := by
      rw [intAt_testBit, intAt_testBit, hbit 31 (by decide) (by omega)]
    rw [IsLessThan_at_first_word hk hwords hwne,
      IsLessThan_fallback_at_first_bit hN hi (fun j hj => hrest j (by omega) (by omega)) hd,
      Bool.eq_iff_iff, decide_eq_true_iff,
      asInt_lt_of_same_sign (intAt_lt a _) (intAt_lt b _) hsign]
    cases ha : a.get i
    · have hb : b.get i = true := by
        cases hb : b.get i
        · exact absurd (ha.trans hb.symm) hd
        · rfl
      have hlt : intAt a (i / 32) < intAt b (i / 32) := by
        apply word_lt_of_single_bit ht
        · rw [hik]; exact ha
        · rw [hik]; exact hb
        · intro s hs hts
          exact hbit s hs (by omega)
      simp [hlt]
    · have hb : b.get i = false := by
        cases hb : b.get i
        · rfl
        · exact absurd (ha.trans hb.symm) hd
      have hlt : intAt b (i / 32) < intAt a (i / 32) := by
        apply word_lt_of_single_bit ht
        · rw [hik]; exact hb
        · rw [hik]; exact ha
        · intro s hs hts
          exact (hbit s hs (by omega)).symm
      have : ¬ intAt a (i / 32) < intAt b (i / 32) := by omega
      simp [this]

/-- C18 (counterexample): the empty bitset is a subset of `{31}` and differs
from it, yet `IsLessThan` orders `{31}` first: word 0 of `{31}` is `INT_MIN`,
which is less than `0` as a signed `int`. -/
theorem IsLessThan_subset_sign_bit :
    IsSubsetOf (EMPTY_BITSET .otherwise) (⟨2 ^ 31, by decide⟩ : bitset_t .otherwise) = true ∧
    EMPTY_BITSET .otherwise ≠ (⟨2 ^ 31, by decide⟩ : bitset_t .otherwise) ∧
    IsLessThan (EMPTY_BITSET .otherwise) (⟨2 ^ 31, by decide⟩ : bitset_t .otherwise) = false ∧
    IsLessThan (⟨2 ^ 31, by decide⟩ : bitset_t .otherwise) (EMPTY_BITSET .otherwise) = true := by
  decide

/-- C18 (amended): for `IsSubsetOf(a, b)` with `a != b`, let `k` be the first
`int` word where `a` and `b` differ.  When bit `32k + 31` (the sign bit of that
word) has the same value in `a` and `b`, `IsLessThan(a, b)` is true and
`IsLessThan(b, a)` is false; when it differs the order is the reverse.  The
empty bitset is a subset of every bitset, so this covers it. -/
theorem IsLessThan_of_subset (c : Build) (a b : bitset_t c)
    (hsub : IsSubsetOf a b = true) (hne : a ≠ b) :
    ∃ k, k < num (BITSETSIZE c) ∧ (∀ j, j < k → intAt a j = intAt b j) ∧
      intAt a k ≠ intAt b k ∧
      (a.get (32 * k + 31) = b.get (32 * k + 31) →
        IsLessThan a b = true ∧ IsLessThan b a = false) ∧
      (a.get (32 * k + 31) ≠ b.get (32 * k + 31) →
        IsLessThan a b = false ∧ IsLessThan b a = true) := by
  obtain ⟨k, hk, hwne, hwords⟩ := exists_first_word_ne hne
  refine ⟨k, hk, hwords, hwne, ?_, ?_⟩
  · intro hs
    have hsign : (intAt a k).testBit 31 = (intAt b k).testBit 31 := by
      rw [intAt_testBit, intAt_testBit]
      exact congrArg _ hs
    have hlt : intAt a k < intAt b k := by
      apply word_lt_of_subset _ hwne
      intro t hat
      rw [intAt_testBit] at hat ⊢
      have ht : t < 32 := by
        by_contra h
        simp [h] at hat
      simp only [ht, decide_True, Bool.true_and] at hat ⊢
      by_cases hj : 32 * k + t < BITSETSIZE c
      · exact (IsSubsetOf_iff a b).mp hsub _ hj hat
      · rw [bitset_testBit_of_ge a (Nat.le_of_not_lt hj)] at hat
        exact absurd hat (by decide)
    have hab : IsLessThan a b = true := by
      rw [IsLessThan_at_first_word hk hwords hwne, decide_eq_true_iff,
        asInt_lt_of_same_sign (intAt_lt a _) (intAt_lt b _) hsign]
      exact hlt
    exact ⟨hab, IsLessThan_loop_asymm a b _ 0 hab⟩
  · intro hs
    have hb31 : b.val.testBit (32 * k + 31) = true := by
      cases hb : b.val.testBit (32 * k + 31)
      · exfalso
        apply hs
        cases ha : a.val.testBit (32 * k + 31)
        · exact ha.trans hb.symm
        · by_cases hj : 32 * k + 31 < BITSETSIZE c
          · rw [(IsSubsetOf_iff a b).mp hsub _ hj ha] at hb
            exact absurd hb (by decide)
          · rw [bitset_testBit_of_ge a (Nat.le_of_not_lt hj)] at ha
            exact absurd ha (by decide)
      · rfl
    have ha31 : a.val.testBit (32 * k + 31) = false := by
      cases ha : a.val.testBit (32 * k + 31)
      · rfl
      · exact absurd (ha.trans hb31.symm) hs
    have hba : IsLessThan b a = true := by
      rw [IsLessThan_at_first_word hk (fun j hj => (hwords j hj).symm) (fun e => hwne e.symm),
        decide_eq_true_iff]
      apply asInt_lt_of_sign (intAt_lt b _) (intAt_lt a _)
      · rw [intAt_testBit, hb31]; rfl
      · rw [intAt_testBit, ha31]; rfl
    exact ⟨IsLessThan_loop_asymm b a _ 0 hba, hba⟩

/-- C18 at capacity 128 with `a = {}` and `b = {3}`: the first word that
differs is word 0, whose bit 31 is clear in both. -/
theorem IsLessThan_of_subset_witness :
    IsSubsetOf (EMPTY_BITSET .otherwise) (⟨2 ^ 3, by decide⟩ : bitset_t .otherwise) = true ∧
    EMPTY_BITSET .otherwise ≠ (⟨2 ^ 3, by decide⟩ : bitset_t .otherwise) ∧
    ∃ k, k < num (BITSETSIZE .otherwise) ∧
      (∀ j, j < k → intAt (EMPTY_BITSET .otherwise) j =
        intAt (⟨2 ^ 3, by decide⟩ : bitset_t .otherwise) j) ∧
      intAt (EMPTY_BITSET .otherwise) k ≠ intAt (⟨2 ^ 3, by decide⟩ : bitset_t .otherwise) k ∧
      ((EMPTY_BITSET .otherwise).get (32 * k + 31) =
          (⟨2 ^ 3, by decide⟩ : bitset_t .otherwise).get (32 * k + 31) →
        IsLessThan (EMPTY_BITSET .otherwise) (⟨2 ^ 3, by decide⟩ : bitset_t .otherwise) = true ∧
        IsLessThan (⟨2 ^ 3, by decide⟩ : bitset_t .otherwise) (EMPTY_BITSET .otherwise) =
          false) ∧
      ((EMPTY_BITSET .otherwise).get (32 * k + 31) ≠
          (⟨2 ^ 3, by decide⟩ : bitset_t .otherwise).get (32 * k + 31) →
        IsLessThan (EMPTY_BITSET .otherwise) (⟨2 ^ 3, by decide⟩ : bitset_t .otherwise) = false ∧
        IsLessThan (⟨2 ^ 3, by decide⟩ : bitset_t .otherwise) (EMPTY_BITSET .otherwise) =
          true) :=
  ⟨by decide, by decide,
    IsLessThan_of_subset .otherwise (EMPTY_BITSET .otherwise) ⟨2 ^ 3, by decide⟩
      (by decide) (by decide)⟩

end BitsetUtil
